import Mathlib

/-!
Verification of the propositional-logic → CNF → DIMACS converter (`cnf.py`).

The embedding follows the source file closely:
  * `Formula` models the AST classes `Variable`, `UnaryOp`, `BinaryOp`
    (with the operator strings `^ v -> <->` embedded as the enum `Op`);
  * `tokenize` models the regex scan
    `re.findall(r'\s*(<->|->|[a-zA-Z0-9]+|[v\^~()])\s*', text)` over ASCII text;
  * `parseIff` … `parseAtom` model the recursive-descent methods of
    `LogicParser`; errors are the `ValueError` message strings the source
    raises.  Non-structural recursions (tokenizer, parser, NNF conversion,
    OR-over-AND distribution) are written with an explicit fuel parameter so
    that every definition is a computable structural recursion; adequate fuel
    bounds are proved below, so the fuel is an implementation device only;
  * `eliminate_implications`, `convert_to_nnf`, `distribute_or_over_and`,
    `get_variables`, and the `DIMACSGenerator` pipeline mirror the
    corresponding Python functions.
-/

/-- The four binary operator strings `'^' 'v' '->' '<->'` stored in
`BinaryOp.operator`; the parser only ever constructs these four. -/
inductive Op where
  | and
  | or
  | implies
  | iff
deriving DecidableEq

/-- The AST of `cnf.py`: `Variable(name)`, `UnaryOp(operand)`,
`BinaryOp(left, right, operator)`. -/
inductive Formula where
  | var (name : String)
  | not (operand : Formula)
  | bin (left right : Formula) (operator : Op)
deriving DecidableEq

/-- Modelled from the spec: the standard truth-table semantics used by the
spec to state equivalence preservation (the source has no evaluator). -/
def eval (v : String → Bool) : Formula → Bool
  | .var n => v n
  | .not f => !(eval v f)
  | .bin l r op =>
    match op with
    | .and => eval v l && eval v r
    | .or => eval v l || eval v r
    | .implies => !(eval v l) || eval v r
    | .iff => eval v l == eval v r

/-- `eliminate_implications` (cnf.py lines 119-137): bottom-up removal
of `->` and `<->`. -/
def eliminate_implications : Formula → Formula
  | .bin l r op =>
    match op with
    | .implies =>
      Formula.bin (.not (eliminate_implications l)) (eliminate_implications r) .or
    | .iff =>
      Formula.bin
        (.bin (.not (eliminate_implications l)) (eliminate_implications r) .or)
        (.bin (.not (eliminate_implications r)) (eliminate_implications l) .or)
        .and
    | _ => Formula.bin (eliminate_implications l) (eliminate_implications r) op
  | .not x => .not (eliminate_implications x)
  | f => f

/-- Termination measure for `convert_to_nnf`: every recursive call of the
source strictly decreases it. -/
def nnfMeasure : Formula → Nat
  | .var _ => 1
  | .not f => 2 * nnfMeasure f
  | .bin l r _ => nnfMeasure l + nnfMeasure r + 1

/-- One fuelled unfolding of `convert_to_nnf` (cnf.py lines 140-162); the
case order matches the source: double negation, De Morgan on `v`, De Morgan
on `^`, then the plain `BinaryOp`/`UnaryOp`/leaf cases.  `none` means the
fuel ran out, which `nnfGo_total` shows never happens at fuel
`nnfMeasure f`. -/
def nnfGo : Nat → Formula → Option Formula
  | 0, _ => none
  | n+1, f =>
    match f with
    | .not (.not x) => nnfGo n x
    | .not (.bin l r op) =>
      if op = Op.or then
        match nnfGo n (.not l), nnfGo n (.not r) with
        | some a, some b => some (.bin a b .and)
        | _, _ => none
      else if op = Op.and then
        match nnfGo n (.not l), nnfGo n (.not r) with
        | some a, some b => some (.bin a b .or)
        | _, _ => none
      else
        match nnfGo n (.bin l r op) with
        | some g => some (.not g)
        | none => none
    | .bin l r op =>
      match nnfGo n l, nnfGo n r with
      | some a, some b => some (.bin a b op)
      | _, _ => none
    | .not x =>
      match nnfGo n x with
      | some g => some (.not g)
      | none => none
    | f => some f

/-- `convert_to_nnf` (cnf.py lines 140-162). -/
def convert_to_nnf (f : Formula) : Formula := (nnfGo (nnfMeasure f) f).getD f

/-- Termination measure for `distribute_or_over_and`: products over `v`
nodes, sums elsewhere; each distribution step strictly decreases it. -/
def distMeasure : Formula → Nat
  | .var _ => 2
  | .not f => distMeasure f
  | .bin l r op =>
    match op with
    | .or => distMeasure l * distMeasure r
    | _ => distMeasure l + distMeasure r + 1

/-- The test `isinstance(node, BinaryOp) and node.operator == '^'` of the
distribution step, together with the extraction of the two conjuncts. -/
def getAnd : Formula → Option (Formula × Formula)
  | .bin l r .and => some (l, r)
  | _ => none

/-- One fuelled unfolding of `distribute_or_over_and`
(cnf.py lines 165-181): children first, then the two distribution rewrites,
each immediately redistributed, exactly as in the source.  `none` means the
fuel ran out, which `distGo_total` shows never happens at fuel
`distMeasure f`. -/
def distGo : Nat → Formula → Option Formula
  | 0, _ => none
  | n+1, f =>
    match f with
    | .bin l r op =>
      match distGo n l, distGo n r with
      | some a, some b =>
        if op = Op.or then
          match getAnd a with
          | some (p, q) =>
            distGo n (.bin (.bin p b .or) (.bin q b .or) .and)
          | none =>
            match getAnd b with
            | some (q, s) =>
              distGo n (.bin (.bin a q .or) (.bin a s .or) .and)
            | none => some (.bin a b op)
        else some (.bin a b op)
      | _, _ => none
    | f => some f

/-- `distribute_or_over_and` (cnf.py lines 165-181). -/
def distribute_or_over_and (f : Formula) : Formula :=
  (distGo (distMeasure f) f).getD f

/-- The full rewrite pipeline `to_cnf` of the spec (§6): steps 1-3 of
`cnf.py` in order. -/
def to_cnf (f : Formula) : Formula :=
  distribute_or_over_and (convert_to_nnf (eliminate_implications f))

/-- `get_variables` (cnf.py lines 184-192), with the mutable set replaced by
the list of variable occurrences; only its set of elements is ever used. -/
def get_variables : Formula → List String
  | .var n => [n]
  | .not f => get_variables f
  | .bin l r _ => get_variables l ++ get_variables r

/-- ASCII whitespace matched by the `\s` of the token pattern. -/
def isSpaceChar (c : Char) : Bool :=
  c = ' ' || c = '\t' || c = '\n' || c = '\r' || c = '\x0b' || c = '\x0c'

/-- A character matched by the `[a-zA-Z0-9]` class of the token pattern. -/
def isAlnumChar (c : Char) : Bool :=
  ('a' ≤ c && c ≤ 'z') || ('A' ≤ c && c ≤ 'Z') || ('0' ≤ c && c ≤ '9')

/-- The greedy `[a-zA-Z0-9]+` run: longest alphanumeric prefix and the rest. -/
def takeAlnum : List Char → List Char × List Char
  | [] => ([], [])
  | c :: cs =>
    if isAlnumChar c then ((c :: (takeAlnum cs).1), (takeAlnum cs).2)
    else ([], c :: cs)

/-- One fuelled scanning step of `re.findall` with the source's token
pattern: at each position the alternatives `<->`, `->`, `[a-zA-Z0-9]+`,
`[v\^~()]` are tried in order (note `v` is already alphanumeric); the
`\s*` context skips whitespace, and a character matching no alternative is
skipped silently (`findall` just advances past it).  Every step consumes at
least one character, so fuel `cs.length` is always enough
(`tokenizeGo_fuel`). -/
def tokenizeGo : Nat → List Char → List String
  | 0, _ => []
  | _+1, [] => []
  | n+1, c :: cs =>
    if c = '<' then
      if cs.take 2 = ['-', '>'] then "<->" :: tokenizeGo n (cs.drop 2)
      else tokenizeGo n cs
    else if c = '-' then
      if cs.take 1 = ['>'] then "->" :: tokenizeGo n (cs.drop 1)
      else tokenizeGo n cs
    else if isSpaceChar c then tokenizeGo n cs
    else if isAlnumChar c then
      String.mk (c :: (takeAlnum cs).1) :: tokenizeGo n (takeAlnum cs).2
    else if c = '^' || c = '~' || c = '(' || c = ')' then
      String.mk [c] :: tokenizeGo n cs
    else tokenizeGo n cs

/-- The token list of `LogicParser.parse` (cnf.py line 49); the
`if t.strip()` filter is a no-op because the capture group never matches
whitespace. -/
def tokenize (cs : List Char) : List String := tokenizeGo cs.length cs

/-- Error message placeholder produced only when a fuelled parser runs out
of fuel; `parseFuel` is generous enough that no claim ever relies on it. -/
def outOfFuel : String := "internal: fuel exhausted"

/-- `None`-aware formatting of a peeked token, matching Python's f-string
rendering of `None` in the error messages. -/
def showTok : Option String → String
  | some t => t
  | none => "None"

/-- The `re.match(r'^[a-zA-Z0-9]+$', token)` test of `_parse_atom`. -/
def isVarTok (t : String) : Bool := !(t.data.isEmpty) && t.data.all isAlnumChar

mutual
/-- `_parse_iff` (cnf.py lines 68-74). -/
def parseIff : Nat → List String → Except String (Formula × List String)
  | 0, _ => .error outOfFuel
  | n+1, ts =>
    match parseImplies n ts with
    | .ok (node, rest) => parseIffLoop n node rest
    | .error e => .error e

/-- The `while self._peek() == '<->'` loop of `_parse_iff`. -/
def parseIffLoop : Nat → Formula → List String → Except String (Formula × List String)
  | 0, _, _ => .error outOfFuel
  | n+1, node, ts =>
    if ts.head? = some "<->" then
      match parseImplies n ts.tail with
      | .ok (right, rest) => parseIffLoop n (.bin node right .iff) rest
      | .error e => .error e
    else .ok (node, ts)

/-- `_parse_implies` (cnf.py lines 76-82). -/
def parseImplies : Nat → List String → Except String (Formula × List String)
  | 0, _ => .error outOfFuel
  | n+1, ts =>
    match parseOr n ts with
    | .ok (node, rest) => parseImpliesLoop n node rest
    | .error e => .error e

/-- The `while self._peek() == '->'` loop of `_parse_implies`. -/
def parseImpliesLoop : Nat → Formula → List String → Except String (Formula × List String)
  | 0, _, _ => .error outOfFuel
  | n+1, node, ts =>
    if ts.head? = some "->" then
      match parseOr n ts.tail with
      | .ok (right, rest) => parseImpliesLoop n (.bin node right .implies) rest
      | .error e => .error e
    else .ok (node, ts)

/-- `_parse_or` (cnf.py lines 84-90). -/
def parseOr : Nat → List String → Except String (Formula × List String)
  | 0, _ => .error outOfFuel
  | n+1, ts =>
    match parseAnd n ts with
    | .ok (node, rest) => parseOrLoop n node rest
    | .error e => .error e

/-- The `while self._peek() == 'v'` loop of `_parse_or`. -/
def parseOrLoop : Nat → Formula → List String → Except String (Formula × List String)
  | 0, _, _ => .error outOfFuel
  | n+1, node, ts =>
    if ts.head? = some "v" then
      match parseAnd n ts.tail with
      | .ok (right, rest) => parseOrLoop n (.bin node right .or) rest
      | .error e => .error e
    else .ok (node, ts)

/-- `_parse_and` (cnf.py lines 92-98). -/
def parseAnd : Nat → List String → Except String (Formula × List String)
  | 0, _ => .error outOfFuel
  | n+1, ts =>
    match parseNot n ts with
    | .ok (node, rest) => parseAndLoop n node rest
    | .error e => .error e

/-- The `while self._peek() == '^'` loop of `_parse_and`. -/
def parseAndLoop : Nat → Formula → List String → Except String (Formula × List String)
  | 0, _, _ => .error outOfFuel
  | n+1, node, ts =>
    if ts.head? = some "^" then
      match parseNot n ts.tail with
      | .ok (right, rest) => parseAndLoop n (.bin node right .and) rest
      | .error e => .error e
    else .ok (node, ts)

/-- `_parse_not` (cnf.py lines 100-104). -/
def parseNot : Nat → List String → Except String (Formula × List String)
  | 0, _ => .error outOfFuel
  | n+1, ts =>
    if ts.head? = some "~" then
      match parseNot n ts.tail with
      | .ok (f, rest) => .ok (.not f, rest)
      | .error e => .error e
    else parseAtom n ts

/-- `_parse_atom` (cnf.py lines 106-116), including the
`self._consume(')')` check with its `Expected: ), Found: …` message. -/
def parseAtom : Nat → List String → Except String (Formula × List String)
  | 0, _ => .error outOfFuel
  | n+1, ts =>
    if ts.head? = some "(" then
      match parseIff n ts.tail with
      | .ok (node, rest) =>
        if rest.head? = some ")" then .ok (node, rest.tail)
        else .error ("Expected: ), Found: " ++ showTok rest.head?)
      | .error e => .error e
    else
      match ts.head? with
      | some t =>
        if isVarTok t then .ok (.var t, ts.tail)
        else .error ("Unexpected token: " ++ t)
      | none => .error ("Unexpected token: None")
end

/-- Fuel used by `parseTokens`: far more than the recursion depth the token
list can force (each nesting level of the grammar consumes a token). -/
def parseFuel (ts : List String) : Nat := 16 * ts.length + 16

/-- `LogicParser.parse` on an already-tokenized input (cnf.py lines 48-56):
empty-input check, `_parse_iff`, then the trailing-token check, which
raises the same `Unexpected token: …` message as `_parse_atom`. -/
def parseTokens (ts : List String) : Except String Formula :=
  match ts with
  | [] => .error "Empty formula"
  | _ =>
    match parseIff (parseFuel ts) ts with
    | .ok (ast, []) => .ok ast
    | .ok (_, t :: _) => .error ("Unexpected token: " ++ t)
    | .error e => .error e

/-- `LogicParser.parse` (cnf.py lines 48-56) from raw text. -/
def parse (text : String) : Except String Formula := parseTokens (tokenize text.data)

/-- Lexicographic (code-point) comparison of character lists, matching
Python's string ordering used by `sorted`. -/
def charListLe : List Char → List Char → Bool
  | [], _ => true
  | _ :: _, [] => false
  | a :: as, b :: bs =>
    if a < b then true else if b < a then false else charListLe as bs

/-- Python's `s1 <= s2` on strings (code-point lexicographic). -/
def strLe (a b : String) : Bool := charListLe a.data b.data

/-- `sorted(list(var_set))` of `DIMACSGenerator.generate` (cnf.py line 204):
the distinct variable names in ascending lexicographic order. -/
def sortedVarsOf (f : Formula) : List String :=
  List.insertionSort (fun a b => strLe a b = true) (get_variables f).dedup

/-- The `for idx, var_name in enumerate(sorted_vars, 1)` loop building
`var_map` (cnf.py lines 206-207), as an association list in insertion
order. -/
def assignIds : Nat → List String → List (String × Nat)
  | _, [] => []
  | n, x :: xs => (x, n) :: assignIds (n+1) xs

/-- The generator's `var_map` for a tree. -/
def varMapOf (f : Formula) : List (String × Nat) := assignIds 1 (sortedVarsOf f)

/-- Dictionary lookup `self.var_map[name]`; the `0` default is never
reached because the map is built from the same tree's variables. -/
def dictGet (m : List (String × Nat)) (k : String) : Nat :=
  match m with
  | [] => 0
  | (a, i) :: rest => if a = k then i else dictGet rest k

/-- `_collect_literals` (cnf.py lines 237-247): walk the `v`-spine; a
`UnaryOp` contributes `-id` of its operand's name (`none` models the
`AttributeError` when the operand is not a `Variable`); a `Variable`
contributes `+id`; any other node contributes nothing. -/
def collectLiterals (vm : List (String × Nat)) : Formula → Option (List Int)
  | .bin l r op =>
    if op = Op.or then
      match collectLiterals vm l, collectLiterals vm r with
      | some a, some b => some (a ++ b)
      | _, _ => none
    else some []
  | .not x =>
    match x with
    | .var nm => some [-(Int.ofNat (dictGet vm nm))]
    | _ => none
  | .var nm => some [Int.ofNat (dictGet vm nm)]

/-- `_collect_clauses` (cnf.py lines 227-235): split along the top-level
`^`-spine; every non-`^` node becomes one clause. -/
def collectClauses (vm : List (String × Nat)) : Formula → Option (List (List Int))
  | .bin l r op =>
    if op = Op.and then
      match collectClauses vm l, collectClauses vm r with
      | some a, some b => some (a ++ b)
      | _, _ => none
    else
      match collectLiterals vm (.bin l r op) with
      | some ls => some [ls]
      | none => none
  | f =>
    match collectLiterals vm f with
    | some ls => some [ls]
    | none => none

/-- The clause list of `DIMACSGenerator.generate` for a tree. -/
def clausesOf (f : Formula) : Option (List (List Int)) :=
  collectClauses (varMapOf f) f

/-- The `output_lines` list of `DIMACSGenerator.generate`
(cnf.py lines 212-223): comment line, `p cnf` line, one line per clause. -/
def dimacsLines (f : Formula) : Option (List String) :=
  match clausesOf f with
  | none => none
  | some cls =>
    let sv := sortedVarsOf f
    let header :=
      if sv.isEmpty then "c Variable Map:"
      else
        "c Variable Map: " ++
          String.intercalate ", "
            (sv.map (fun nm => nm ++ "=" ++ toString (dictGet (varMapOf f) nm)))
    let pline :=
      "p cnf " ++ toString (varMapOf f).length ++ " " ++ toString cls.length
    some (header :: pline ::
      cls.map (fun c => String.intercalate " " (c.map toString) ++ " 0"))

/-- `DIMACSGenerator.generate` (cnf.py lines 201-225): the joined text. -/
def generate (f : Formula) : Option String :=
  (dimacsLines f).map (String.intercalate "\n")

/-- Operators allowed in NNF/CNF shapes: `^` and `v`. -/
def okOp : Op → Bool
  | .and => true
  | .or => true
  | _ => false

/-- No `->`/`<->` anywhere (the postcondition of `eliminate_implications`). -/
def noImp : Formula → Bool
  | .var _ => true
  | .not f => noImp f
  | .bin l r op => okOp op && noImp l && noImp r

/-- Negation applied only to variables, operators only `^`/`v` (the
postcondition of `convert_to_nnf` on implication-free input). -/
def isNNF : Formula → Bool
  | .var _ => true
  | .not (.var _) => true
  | .not _ => false
  | .bin l r op => okOp op && isNNF l && isNNF r

/-- A literal: a variable or a negated variable. -/
def isLiteral : Formula → Bool
  | .var _ => true
  | .not (.var _) => true
  | _ => false

/-- A clause: an `v`-spine whose leaves are literals. -/
def isClause : Formula → Bool
  | .bin l r .or => isClause l && isClause r
  | f => isLiteral f

/-- CNF shape (§3 of the spec): an `^`-spine of clauses — no `OR` node has
an `AND` descendant reachable without crossing another `AND`, and every
leaf under an `OR` spine is a literal. -/
def isCNF : Formula → Bool
  | .bin l r .and => isCNF l && isCNF r
  | f => isClause f

/-- A tree the distribution pass leaves unchanged: along binary nodes, no
`v` node has an immediate `^` child (`distribute_or_over_and` never looks
inside `UnaryOp`). -/
def distNormal : Formula → Bool
  | .var _ => true
  | .not _ => true
  | .bin l r op =>
    distNormal l && distNormal r &&
      (if op = Op.or then (getAnd l).isNone && (getAnd r).isNone else true)

/-- The tree contains at least one `Variable` leaf. -/
def hasVar : Formula → Bool
  | .var _ => true
  | .not f => hasVar f
  | .bin l r _ => hasVar l || hasVar r

/-! ### Totality and unfolding equations for `convert_to_nnf` -/

theorem nnfMeasure_pos : ∀ f, 1 ≤ nnfMeasure f := by
  intro f
  induction f with
  | var n => simp [nnfMeasure]
  | not f ih => simp only [nnfMeasure]; omega
  | bin l r op ihl ihr => simp only [nnfMeasure]; omega

theorem nnfGo_step_var (n : Nat) (s : String) :
    nnfGo (n+1) (.var s) = some (.var s) := rfl

theorem nnfGo_step_notvar (n : Nat) (s : String) :
    nnfGo (n+1) (.not (.var s)) =
      (match nnfGo n (.var s) with
       | some g => some (.not g)
       | none => none) := rfl

theorem nnfGo_step_notnot (n : Nat) (x : Formula) :
    nnfGo (n+1) (.not (.not x)) = nnfGo n x := rfl

theorem nnfGo_step_notor (n : Nat) (l r : Formula) :
    nnfGo (n+1) (.not (.bin l r .or)) =
      (match nnfGo n (.not l), nnfGo n (.not r) with
       | some a, some b => some (.bin a b .and)
       | _, _ => none) := rfl

theorem nnfGo_step_notand (n : Nat) (l r : Formula) :
    nnfGo (n+1) (.not (.bin l r .and)) =
      (match nnfGo n (.not l), nnfGo n (.not r) with
       | some a, some b => some (.bin a b .or)
       | _, _ => none) := rfl

theorem nnfGo_step_notimp (n : Nat) (l r : Formula) :
    nnfGo (n+1) (.not (.bin l r .implies)) =
      (match nnfGo n (.bin l r .implies) with
       | some g => some (.not g)
       | none => none) := rfl

theorem nnfGo_step_notiff (n : Nat) (l r : Formula) :
    nnfGo (n+1) (.not (.bin l r .iff)) =
      (match nnfGo n (.bin l r .iff) with
       | some g => some (.not g)
       | none => none) := rfl

theorem nnfGo_step_bin (n : Nat) (l r : Formula) (op : Op) :
    nnfGo (n+1) (.bin l r op) =
      (match nnfGo n l, nnfGo n r with
       | some a, some b => some (.bin a b op)
       | _, _ => none) := rfl

theorem nnfGo_total : ∀ (k : Nat) (f : Formula), nnfMeasure f ≤ k →
    ∃ g, ∀ n, nnfMeasure f ≤ n → nnfGo n f = some g := by
  intro k
  induction k with
  | zero => intro f hf; have := nnfMeasure_pos f; omega
  | succ k ih =>
    intro f hf
    match f with
    | .var s =>
      refine ⟨.var s, fun n hn => ?_⟩
      obtain ⟨m, rfl⟩ : ∃ m, n = m + 1 := ⟨n - 1, by have := nnfMeasure_pos (Formula.var s); omega⟩
      exact nnfGo_step_var m s
    | .not (.var s) =>
      refine ⟨.not (.var s), fun n hn => ?_⟩
      have h2 : nnfMeasure (Formula.not (.var s)) = 2 := by simp [nnfMeasure]
      obtain ⟨m, rfl⟩ : ∃ m, n = m + 1 := ⟨n - 1, by omega⟩
      obtain ⟨m2, rfl⟩ : ∃ m2, m = m2 + 1 := ⟨m - 1, by omega⟩
      rw [nnfGo_step_notvar, nnfGo_step_var]
    | .not (.not x) =>
      have hm : nnfMeasure (Formula.not (.not x)) = 4 * nnfMeasure x := by
        simp only [nnfMeasure]; ring
      have hx := nnfMeasure_pos x
      obtain ⟨g, hg⟩ := ih x (by omega)
      refine ⟨g, fun n hn => ?_⟩
      obtain ⟨m, rfl⟩ : ∃ m, n = m + 1 := ⟨n - 1, by omega⟩
      rw [nnfGo_step_notnot]
      exact hg m (by omega)
    | .not (.bin l r op) =>
      have hl := nnfMeasure_pos l
      have hr := nnfMeasure_pos r
      have hm : nnfMeasure (Formula.not (.bin l r op)) =
          2 * nnfMeasure l + 2 * nnfMeasure r + 2 := by
        simp only [nnfMeasure]; ring
      have hnl : nnfMeasure (Formula.not l) = 2 * nnfMeasure l := by simp [nnfMeasure]
      have hnr : nnfMeasure (Formula.not r) = 2 * nnfMeasure r := by simp [nnfMeasure]
      have hbin : nnfMeasure (Formula.bin l r op) = nnfMeasure l + nnfMeasure r + 1 := by
        simp [nnfMeasure]
      match op with
      | .or =>
        obtain ⟨a, ha⟩ := ih (.not l) (by omega)
        obtain ⟨b, hb⟩ := ih (.not r) (by omega)
        refine ⟨.bin a b .and, fun n hn => ?_⟩
        obtain ⟨m, rfl⟩ : ∃ m, n = m + 1 := ⟨n - 1, by omega⟩
        rw [nnfGo_step_notor, ha m (by omega), hb m (by omega)]
      | .and =>
        obtain ⟨a, ha⟩ := ih (.not l) (by omega)
        obtain ⟨b, hb⟩ := ih (.not r) (by omega)
        refine ⟨.bin a b .or, fun n hn => ?_⟩
        obtain ⟨m, rfl⟩ : ∃ m, n = m + 1 := ⟨n - 1, by omega⟩
        rw [nnfGo_step_notand, ha m (by omega), hb m (by omega)]
      | .implies =>
        obtain ⟨g, hg⟩ := ih (.bin l r .implies) (by omega)
        refine ⟨.not g, fun n hn => ?_⟩
        obtain ⟨m, rfl⟩ : ∃ m, n = m + 1 := ⟨n - 1, by omega⟩
        rw [nnfGo_step_notimp, hg m (by omega)]
      | .iff =>
        obtain ⟨g, hg⟩ := ih (.bin l r .iff) (by omega)
        refine ⟨.not g, fun n hn => ?_⟩
        obtain ⟨m, rfl⟩ : ∃ m, n = m + 1 := ⟨n - 1, by omega⟩
        rw [nnfGo_step_notiff, hg m (by omega)]
    | .bin l r op =>
      have hl := nnfMeasure_pos l
      have hr := nnfMeasure_pos r
      have hm : nnfMeasure (Formula.bin l r op) = nnfMeasure l + nnfMeasure r + 1 := by
        simp [nnfMeasure]
      obtain ⟨a, ha⟩ := ih l (by omega)
      obtain ⟨b, hb⟩ := ih r (by omega)
      refine ⟨.bin a b op, fun n hn => ?_⟩
      obtain ⟨m, rfl⟩ : ∃ m, n = m + 1 := ⟨n - 1, by omega⟩
      rw [nnfGo_step_bin, ha m (by omega), hb m (by omega)]

theorem nnfGo_eq (f : Formula) (n : Nat) (hn : nnfMeasure f ≤ n) :
    nnfGo n f = some (convert_to_nnf f) := by
  obtain ⟨g, hg⟩ := nnfGo_total (nnfMeasure f) f le_rfl
  have h1 : convert_to_nnf f = g := by
    unfold convert_to_nnf
    rw [hg (nnfMeasure f) le_rfl]
    rfl
  rw [h1]
  exact hg n hn

theorem nnf_var (s : String) : convert_to_nnf (.var s) = .var s := rfl

theorem nnf_notvar (s : String) : convert_to_nnf (.not (.var s)) = .not (.var s) := rfl

theorem nnf_notnot (x : Formula) :
    convert_to_nnf (.not (.not x)) = convert_to_nnf x := by
  have hx := nnfMeasure_pos x
  have hm : nnfMeasure (Formula.not (.not x)) = 4 * nnfMeasure x := by
    simp only [nnfMeasure]; ring
  obtain ⟨m, hm2⟩ : ∃ m, nnfMeasure (Formula.not (.not x)) = m + 1 :=
    ⟨nnfMeasure (Formula.not (.not x)) - 1, by omega⟩
  have h1 := nnfGo_eq (.not (.not x)) _ le_rfl
  rw [hm2, nnfGo_step_notnot, nnfGo_eq x m (by omega)] at h1
  exact (Option.some.inj h1).symm

theorem nnf_bin (l r : Formula) (op : Op) :
    convert_to_nnf (.bin l r op) = .bin (convert_to_nnf l) (convert_to_nnf r) op := by
  have hl := nnfMeasure_pos l
  have hr := nnfMeasure_pos r
  have hm : nnfMeasure (Formula.bin l r op) = nnfMeasure l + nnfMeasure r + 1 := by
    simp [nnfMeasure]
  obtain ⟨m, hm2⟩ : ∃ m, nnfMeasure (Formula.bin l r op) = m + 1 :=
    ⟨nnfMeasure (Formula.bin l r op) - 1, by omega⟩
  have h1 := nnfGo_eq (.bin l r op) _ le_rfl
  rw [hm2, nnfGo_step_bin, nnfGo_eq l m (by omega), nnfGo_eq r m (by omega)] at h1
  exact (Option.some.inj h1).symm

theorem nnf_notor (l r : Formula) :
    convert_to_nnf (.not (.bin l r .or)) =
      .bin (convert_to_nnf (.not l)) (convert_to_nnf (.not r)) .and := by
  have hl := nnfMeasure_pos l
  have hr := nnfMeasure_pos r
  have hm : nnfMeasure (Formula.not (.bin l r .or)) =
      2 * nnfMeasure l + 2 * nnfMeasure r + 2 := by simp only [nnfMeasure]; ring
  have hnl : nnfMeasure (Formula.not l) = 2 * nnfMeasure l := by simp [nnfMeasure]
  have hnr : nnfMeasure (Formula.not r) = 2 * nnfMeasure r := by simp [nnfMeasure]
  obtain ⟨m, hm2⟩ : ∃ m, nnfMeasure (Formula.not (.bin l r .or)) = m + 1 :=
    ⟨nnfMeasure (Formula.not (.bin l r .or)) - 1, by omega⟩
  have h1 := nnfGo_eq (.not (.bin l r .or)) _ le_rfl
  rw [hm2, nnfGo_step_notor, nnfGo_eq (.not l) m (by omega),
    nnfGo_eq (.not r) m (by omega)] at h1
  exact (Option.some.inj h1).symm

theorem nnf_notand (l r : Formula) :
    convert_to_nnf (.not (.bin l r .and)) =
      .bin (convert_to_nnf (.not l)) (convert_to_nnf (.not r)) .or := by
  have hl := nnfMeasure_pos l
  have hr := nnfMeasure_pos r
  have hm : nnfMeasure (Formula.not (.bin l r .and)) =
      2 * nnfMeasure l + 2 * nnfMeasure r + 2 := by simp only [nnfMeasure]; ring
  have hnl : nnfMeasure (Formula.not l) = 2 * nnfMeasure l := by simp [nnfMeasure]
  have hnr : nnfMeasure (Formula.not r) = 2 * nnfMeasure r := by simp [nnfMeasure]
  obtain ⟨m, hm2⟩ : ∃ m, nnfMeasure (Formula.not (.bin l r .and)) = m + 1 :=
    ⟨nnfMeasure (Formula.not (.bin l r .and)) - 1, by omega⟩
  have h1 := nnfGo_eq (.not (.bin l r .and)) _ le_rfl
  rw [hm2, nnfGo_step_notand, nnfGo_eq (.not l) m (by omega),
    nnfGo_eq (.not r) m (by omega)] at h1
  exact (Option.some.inj h1).symm

theorem nnf_notimp (l r : Formula) :
    convert_to_nnf (.not (.bin l r .implies)) =
      .not (convert_to_nnf (.bin l r .implies)) := by
  have hl := nnfMeasure_pos l
  have hr := nnfMeasure_pos r
  have hm : nnfMeasure (Formula.not (.bin l r .implies)) =
      2 * nnfMeasure l + 2 * nnfMeasure r + 2 := by simp only [nnfMeasure]; ring
  have hb : nnfMeasure (Formula.bin l r .implies) = nnfMeasure l + nnfMeasure r + 1 := by
    simp [nnfMeasure]
  obtain ⟨m, hm2⟩ : ∃ m, nnfMeasure (Formula.not (.bin l r .implies)) = m + 1 :=
    ⟨nnfMeasure (Formula.not (.bin l r .implies)) - 1, by omega⟩
  have h1 := nnfGo_eq (.not (.bin l r .implies)) _ le_rfl
  rw [hm2, nnfGo_step_notimp, nnfGo_eq (.bin l r .implies) m (by omega)] at h1
  exact (Option.some.inj h1).symm

theorem nnf_notiff (l r : Formula) :
    convert_to_nnf (.not (.bin l r .iff)) =
      .not (convert_to_nnf (.bin l r .iff)) := by
  have hl := nnfMeasure_pos l
  have hr := nnfMeasure_pos r
  have hm : nnfMeasure (Formula.not (.bin l r .iff)) =
      2 * nnfMeasure l + 2 * nnfMeasure r + 2 := by simp only [nnfMeasure]; ring
  have hb : nnfMeasure (Formula.bin l r .iff) = nnfMeasure l + nnfMeasure r + 1 := by
    simp [nnfMeasure]
  obtain ⟨m, hm2⟩ : ∃ m, nnfMeasure (Formula.not (.bin l r .iff)) = m + 1 :=
    ⟨nnfMeasure (Formula.not (.bin l r .iff)) - 1, by omega⟩
  have h1 := nnfGo_eq (.not (.bin l r .iff)) _ le_rfl
  rw [hm2, nnfGo_step_notiff, nnfGo_eq (.bin l r .iff) m (by omega)] at h1
  exact (Option.some.inj h1).symm

/-! ### Step 1: `eliminate_implications` preserves truth value and
variables, and removes every `->`/`<->` -/

theorem eval_eliminate (v : String → Bool) : ∀ f,
    eval v (eliminate_implications f) = eval v f := by
  intro f
  induction f with
  | var n => rfl
  | not x ih => simp only [eliminate_implications, eval, ih]
  | bin l r op ihl ihr =>
    match op with
    | .and => simp only [eliminate_implications, eval, ihl, ihr]
    | .or => simp only [eliminate_implications, eval, ihl, ihr]
    | .implies => simp only [eliminate_implications, eval, ihl, ihr]
    | .iff =>
      simp only [eliminate_implications, eval, ihl, ihr]
      cases eval v l <;> cases eval v r <;> rfl

theorem noImp_eliminate : ∀ f, noImp (eliminate_implications f) = true := by
  intro f
  induction f with
  | var n => rfl
  | not x ih => simpa only [eliminate_implications, noImp] using ih
  | bin l r op ihl ihr =>
    match op with
    | .and => simp only [eliminate_implications, noImp, okOp, ihl, ihr, Bool.and_self]
    | .or => simp only [eliminate_implications, noImp, okOp, ihl, ihr, Bool.and_self]
    | .implies => simp [eliminate_implications, noImp, okOp, ihl, ihr]
    | .iff => simp [eliminate_implications, noImp, okOp, ihl, ihr]

theorem vars_eliminate (x : String) : ∀ f,
    x ∈ get_variables (eliminate_implications f) ↔ x ∈ get_variables f := by
  intro f
  induction f with
  | var n => simp [eliminate_implications]
  | not f ih => simpa only [eliminate_implications, get_variables] using ih
  | bin l r op ihl ihr =>
    match op with
    | .and => simp only [eliminate_implications, get_variables, List.mem_append, ihl, ihr]
    | .or => simp only [eliminate_implications, get_variables, List.mem_append, ihl, ihr]
    | .implies => simp only [eliminate_implications, get_variables, List.mem_append, ihl, ihr]
    | .iff =>
      simp only [eliminate_implications, get_variables, List.mem_append, ihl, ihr]
      tauto

/-! ### Step 2: `convert_to_nnf` preserves truth value and variables, and
yields NNF on implication-free input -/

theorem eval_nnf_aux (v : String → Bool) : ∀ (k : Nat) (f : Formula),
    nnfMeasure f ≤ k → eval v (convert_to_nnf f) = eval v f := by
  intro k
  induction k with
  | zero => intro f hf; have := nnfMeasure_pos f; omega
  | succ k ih =>
    intro f hf
    match f with
    | .var s => rw [nnf_var]
    | .not (.var s) => rw [nnf_notvar]
    | .not (.not x) =>
      have hx := nnfMeasure_pos x
      have hm : nnfMeasure (Formula.not (.not x)) = 4 * nnfMeasure x := by
        simp only [nnfMeasure]; ring
      rw [nnf_notnot, ih x (by omega)]
      simp only [eval, Bool.not_not]
    | .not (.bin l r op) =>
      have hl := nnfMeasure_pos l
      have hr := nnfMeasure_pos r
      have hm : nnfMeasure (Formula.not (.bin l r op)) =
          2 * nnfMeasure l + 2 * nnfMeasure r + 2 := by simp only [nnfMeasure]; ring
      have hnl : nnfMeasure (Formula.not l) = 2 * nnfMeasure l := by simp [nnfMeasure]
      have hnr : nnfMeasure (Formula.not r) = 2 * nnfMeasure r := by simp [nnfMeasure]
      have hb : nnfMeasure (Formula.bin l r op) = nnfMeasure l + nnfMeasure r + 1 := by
        simp [nnfMeasure]
      match op with
      | .or =>
        rw [nnf_notor, ]
        simp only [eval]
        rw [ih (.not l) (by omega), ih (.not r) (by omega)]
        simp only [eval]
        cases eval v l <;> cases eval v r <;> rfl
      | .and =>
        rw [nnf_notand]
        simp only [eval]
        rw [ih (.not l) (by omega), ih (.not r) (by omega)]
        simp only [eval]
        cases eval v l <;> cases eval v r <;> rfl
      | .implies =>
        rw [nnf_notimp]
        simp only [eval]
        rw [ih (.bin l r .implies) (by omega)]
        simp only [eval]
      | .iff =>
        rw [nnf_notiff]
        simp only [eval]
        rw [ih (.bin l r .iff) (by omega)]
        simp only [eval]
    | .bin l r op =>
      have hl := nnfMeasure_pos l
      have hr := nnfMeasure_pos r
      have hm : nnfMeasure (Formula.bin l r op) = nnfMeasure l + nnfMeasure r + 1 := by
        simp [nnfMeasure]
      rw [nnf_bin]
      simp only [eval]
      rw [ih l (by omega), ih r (by omega)]

theorem eval_nnf (v : String → Bool) (f : Formula) :
    eval v (convert_to_nnf f) = eval v f :=
  eval_nnf_aux v (nnfMeasure f) f le_rfl

theorem vars_nnf_aux (x : String) : ∀ (k : Nat) (f : Formula),
    nnfMeasure f ≤ k →
    (x ∈ get_variables (convert_to_nnf f) ↔ x ∈ get_variables f) := by
  intro k
  induction k with
  | zero => intro f hf; have := nnfMeasure_pos f; omega
  | succ k ih =>
    intro f hf
    match f with
    | .var s => rw [nnf_var]
    | .not (.var s) => rw [nnf_notvar]
    | .not (.not x) =>
      have hx := nnfMeasure_pos x
      have hm : nnfMeasure (Formula.not (.not x)) = 4 * nnfMeasure x := by
        simp only [nnfMeasure]; ring
      rw [nnf_notnot]
      simpa only [get_variables] using ih x (by omega)
    | .not (.bin l r op) =>
      have hl := nnfMeasure_pos l
      have hr := nnfMeasure_pos r
      have hm : nnfMeasure (Formula.not (.bin l r op)) =
          2 * nnfMeasure l + 2 * nnfMeasure r + 2 := by simp only [nnfMeasure]; ring
      have hnl : nnfMeasure (Formula.not l) = 2 * nnfMeasure l := by simp [nnfMeasure]
      have hnr : nnfMeasure (Formula.not r) = 2 * nnfMeasure r := by simp [nnfMeasure]
      have hb : nnfMeasure (Formula.bin l r op) = nnfMeasure l + nnfMeasure r + 1 := by
        simp [nnfMeasure]
      match op with
      | .or =>
        rw [nnf_notor]
        simp only [get_variables, List.mem_append]
        rw [show (x ∈ get_variables (convert_to_nnf (.not l)) ↔ x ∈ get_variables l) from
          by simpa only [get_variables] using ih (.not l) (by omega),
          show (x ∈ get_variables (convert_to_nnf (.not r)) ↔ x ∈ get_variables r) from
          by simpa only [get_variables] using ih (.not r) (by omega)]
      | .and =>
        rw [nnf_notand]
        simp only [get_variables, List.mem_append]
        rw [show (x ∈ get_variables (convert_to_nnf (.not l)) ↔ x ∈ get_variables l) from
          by simpa only [get_variables] using ih (.not l) (by omega),
          show (x ∈ get_variables (convert_to_nnf (.not r)) ↔ x ∈ get_variables r) from
          by simpa only [get_variables] using ih (.not r) (by omega)]
      | .implies =>
        rw [nnf_notimp]
        simpa only [get_variables] using ih (.bin l r .implies) (by omega)
      | .iff =>
        rw [nnf_notiff]
        simpa only [get_variables] using ih (.bin l r .iff) (by omega)
    | .bin l r op =>
      have hl := nnfMeasure_pos l
      have hr := nnfMeasure_pos r
      have hm : nnfMeasure (Formula.bin l r op) = nnfMeasure l + nnfMeasure r + 1 := by
        simp [nnfMeasure]
      rw [nnf_bin]
      simp only [get_variables, List.mem_append]
      rw [ih l (by omega), ih r (by omega)]

theorem vars_nnf (x : String) (f : Formula) :
    x ∈ get_variables (convert_to_nnf f) ↔ x ∈ get_variables f :=
  vars_nnf_aux x (nnfMeasure f) f le_rfl

theorem isNNF_nnf_aux : ∀ (k : Nat) (f : Formula),
    nnfMeasure f ≤ k → noImp f = true → isNNF (convert_to_nnf f) = true := by
  intro k
  induction k with
  | zero => intro f hf; have := nnfMeasure_pos f; omega
  | succ k ih =>
    intro f hf hni
    match f with
    | .var s => rw [nnf_var]; rfl
    | .not (.var s) => rw [nnf_notvar]; rfl
    | .not (.not x) =>
      have hx := nnfMeasure_pos x
      have hm : nnfMeasure (Formula.not (.not x)) = 4 * nnfMeasure x := by
        simp only [nnfMeasure]; ring
      rw [nnf_notnot]
      exact ih x (by omega) (by simpa only [noImp] using hni)
    | .not (.bin l r op) =>
      have hl := nnfMeasure_pos l
      have hr := nnfMeasure_pos r
      have hm : nnfMeasure (Formula.not (.bin l r op)) =
          2 * nnfMeasure l + 2 * nnfMeasure r + 2 := by simp only [nnfMeasure]; ring
      have hnl : nnfMeasure (Formula.not l) = 2 * nnfMeasure l := by simp [nnfMeasure]
      have hnr : nnfMeasure (Formula.not r) = 2 * nnfMeasure r := by simp [nnfMeasure]
      simp only [noImp] at hni
      match op, hni with
      | .or, hni =>
        simp only [okOp, Bool.true_and, Bool.and_eq_true] at hni
        rw [nnf_notor]
        simp only [isNNF, okOp, Bool.true_and, Bool.and_eq_true]
        exact ⟨ih (.not l) (by omega) (by simpa only [noImp] using hni.1),
          ih (.not r) (by omega) (by simpa only [noImp] using hni.2)⟩
      | .and, hni =>
        simp only [okOp, Bool.true_and, Bool.and_eq_true] at hni
        rw [nnf_notand]
        simp only [isNNF, okOp, Bool.true_and, Bool.and_eq_true]
        exact ⟨ih (.not l) (by omega) (by simpa only [noImp] using hni.1),
          ih (.not r) (by omega) (by simpa only [noImp] using hni.2)⟩
      | .implies, hni => simp [okOp] at hni
      | .iff, hni => simp [okOp] at hni
    | .bin l r op =>
      have hl := nnfMeasure_pos l
      have hr := nnfMeasure_pos r
      have hm : nnfMeasure (Formula.bin l r op) = nnfMeasure l + nnfMeasure r + 1 := by
        simp [nnfMeasure]
      simp only [noImp, Bool.and_eq_true] at hni
      rw [nnf_bin]
      simp only [isNNF, Bool.and_eq_true]
      exact ⟨⟨hni.1.1, ih l (by omega) hni.1.2⟩, ih r (by omega) hni.2⟩

theorem isNNF_nnf (f : Formula) (h : noImp f = true) :
    isNNF (convert_to_nnf f) = true :=
  isNNF_nnf_aux (nnfMeasure f) f le_rfl h

/-! ### Totality, measure bound, and unfolding equations for
`distribute_or_over_and` -/

theorem two_le_distMeasure : ∀ f, 2 ≤ distMeasure f := by
  intro f
  induction f with
  | var n => simp [distMeasure]
  | not x ih => simpa only [distMeasure] using ih
  | bin l r op ihl ihr =>
    match op with
    | .or =>
      calc 2 ≤ distMeasure l := ihl
        _ = distMeasure l * 1 := (Nat.mul_one _).symm
        _ ≤ distMeasure l * distMeasure r := Nat.mul_le_mul le_rfl (by omega)
        _ = distMeasure (Formula.bin l r .or) := rfl
    | .and => simp only [distMeasure]; omega
    | .implies => simp only [distMeasure]; omega
    | .iff => simp only [distMeasure]; omega

theorem dm_var (s : String) : distMeasure (.var s) = 2 := rfl
theorem dm_not (x : Formula) : distMeasure (.not x) = distMeasure x := rfl
theorem dm_bin_or (l r : Formula) :
    distMeasure (.bin l r .or) = distMeasure l * distMeasure r := rfl
theorem dm_bin_and (l r : Formula) :
    distMeasure (.bin l r .and) = distMeasure l + distMeasure r + 1 := rfl
theorem dm_bin_imp (l r : Formula) :
    distMeasure (.bin l r .implies) = distMeasure l + distMeasure r + 1 := rfl
theorem dm_bin_iff (l r : Formula) :
    distMeasure (.bin l r .iff) = distMeasure l + distMeasure r + 1 := rfl

theorem dm_left_lt {p q b l r : Formula}
    (h1 : distMeasure (Formula.bin p q .and) ≤ distMeasure l)
    (h2 : distMeasure b ≤ distMeasure r) :
    distMeasure (Formula.bin (.bin p b .or) (.bin q b .or) .and) <
      distMeasure (Formula.bin l r .or) := by
  rw [dm_bin_and] at h1
  rw [dm_bin_and, dm_bin_or, dm_bin_or, dm_bin_or]
  have hr2 := two_le_distMeasure r
  have e1 : distMeasure p * distMeasure b ≤ distMeasure p * distMeasure r :=
    Nat.mul_le_mul le_rfl h2
  have e2 : distMeasure q * distMeasure b ≤ distMeasure q * distMeasure r :=
    Nat.mul_le_mul le_rfl h2
  have e3 : (distMeasure p + distMeasure q + 1) * distMeasure r ≤
      distMeasure l * distMeasure r := Nat.mul_le_mul h1 le_rfl
  have e4 : (distMeasure p + distMeasure q + 1) * distMeasure r =
      distMeasure p * distMeasure r + distMeasure q * distMeasure r +
        distMeasure r := by ring
  linarith

theorem dm_right_lt {a q s l r : Formula}
    (h1 : distMeasure a ≤ distMeasure l)
    (h2 : distMeasure (Formula.bin q s .and) ≤ distMeasure r) :
    distMeasure (Formula.bin (.bin a q .or) (.bin a s .or) .and) <
      distMeasure (Formula.bin l r .or) := by
  rw [dm_bin_and] at h2
  rw [dm_bin_and, dm_bin_or, dm_bin_or, dm_bin_or]
  have hl2 := two_le_distMeasure l
  have e1 : distMeasure a * distMeasure q ≤ distMeasure l * distMeasure q :=
    Nat.mul_le_mul h1 le_rfl
  have e2 : distMeasure a * distMeasure s ≤ distMeasure l * distMeasure s :=
    Nat.mul_le_mul h1 le_rfl
  have e3 : distMeasure l * (distMeasure q + distMeasure s + 1) ≤
      distMeasure l * distMeasure r := Nat.mul_le_mul le_rfl h2
  have e4 : distMeasure l * (distMeasure q + distMeasure s + 1) =
      distMeasure l * distMeasure q + distMeasure l * distMeasure s +
        distMeasure l := by ring
  linarith

theorem distGo_step_var (n : Nat) (s : String) :
    distGo (n+1) (.var s) = some (.var s) := rfl

theorem distGo_step_not (n : Nat) (x : Formula) :
    distGo (n+1) (.not x) = some (.not x) := rfl

theorem distGo_step_bin_or (n : Nat) (l r : Formula) :
    distGo (n+1) (.bin l r .or) =
      (match distGo n l, distGo n r with
       | some a, some b =>
         (match getAnd a with
          | some (p, q) => distGo n (.bin (.bin p b .or) (.bin q b .or) .and)
          | none =>
            match getAnd b with
            | some (q, s) => distGo n (.bin (.bin a q .or) (.bin a s .or) .and)
            | none => some (.bin a b .or))
       | _, _ => none) := rfl

theorem distGo_step_bin_and (n : Nat) (l r : Formula) :
    distGo (n+1) (.bin l r .and) =
      (match distGo n l, distGo n r with
       | some a, some b => some (.bin a b .and)
       | _, _ => none) := rfl

theorem distGo_step_bin_imp (n : Nat) (l r : Formula) :
    distGo (n+1) (.bin l r .implies) =
      (match distGo n l, distGo n r with
       | some a, some b => some (.bin a b .implies)
       | _, _ => none) := rfl

theorem distGo_step_bin_iff (n : Nat) (l r : Formula) :
    distGo (n+1) (.bin l r .iff) =
      (match distGo n l, distGo n r with
       | some a, some b => some (.bin a b .iff)
       | _, _ => none) := rfl

theorem getAnd_eq_some {f p q : Formula} (h : getAnd f = some (p, q)) :
    f = .bin p q .and := by
  cases f with
  | var s => simp [getAnd] at h
  | not x => simp [getAnd] at h
  | bin a b op =>
    cases op with
    | and => simp only [getAnd, Option.some.injEq, Prod.mk.injEq] at h; rw [h.1, h.2]
    | or => simp [getAnd] at h
    | implies => simp [getAnd] at h
    | iff => simp [getAnd] at h

theorem distGo_total : ∀ (k : Nat) (f : Formula), distMeasure f ≤ k →
    ∃ g, distMeasure g ≤ distMeasure f ∧
      ∀ n, distMeasure f ≤ n → distGo n f = some g := by
  intro k
  induction k with
  | zero => intro f hf; have := two_le_distMeasure f; omega
  | succ k ih =>
    intro f hf
    match f with
    | .var s =>
      refine ⟨.var s, le_rfl, fun n hn => ?_⟩
      obtain ⟨m, rfl⟩ : ∃ m, n = m + 1 := ⟨n - 1, by have := two_le_distMeasure (Formula.var s); omega⟩
      exact distGo_step_var m s
    | .not x =>
      refine ⟨.not x, le_rfl, fun n hn => ?_⟩
      obtain ⟨m, rfl⟩ : ∃ m, n = m + 1 := ⟨n - 1, by have := two_le_distMeasure (Formula.not x); omega⟩
      exact distGo_step_not m x
    | .bin l r op =>
      have hdl := two_le_distMeasure l
      have hdr := two_le_distMeasure r
      match op with
      | .and =>
        rw [dm_bin_and] at hf
        obtain ⟨a, ha_le, ha⟩ := ih l (by omega)
        obtain ⟨b, hb_le, hb⟩ := ih r (by omega)
        refine ⟨.bin a b .and, ?_, fun n hn => ?_⟩
        · rw [dm_bin_and, dm_bin_and]; omega
        · rw [dm_bin_and] at hn
          obtain ⟨m, rfl⟩ : ∃ m, n = m + 1 := ⟨n - 1, by omega⟩
          rw [distGo_step_bin_and, ha m (by omega), hb m (by omega)]
      | .implies =>
        rw [dm_bin_imp] at hf
        obtain ⟨a, ha_le, ha⟩ := ih l (by omega)
        obtain ⟨b, hb_le, hb⟩ := ih r (by omega)
        refine ⟨.bin a b .implies, ?_, fun n hn => ?_⟩
        · rw [dm_bin_imp, dm_bin_imp]; omega
        · rw [dm_bin_imp] at hn
          obtain ⟨m, rfl⟩ : ∃ m, n = m + 1 := ⟨n - 1, by omega⟩
          rw [distGo_step_bin_imp, ha m (by omega), hb m (by omega)]
      | .iff =>
        rw [dm_bin_iff] at hf
        obtain ⟨a, ha_le, ha⟩ := ih l (by omega)
        obtain ⟨b, hb_le, hb⟩ := ih r (by omega)
        refine ⟨.bin a b .iff, ?_, fun n hn => ?_⟩
        · rw [dm_bin_iff, dm_bin_iff]; omega
        · rw [dm_bin_iff] at hn
          obtain ⟨m, rfl⟩ : ∃ m, n = m + 1 := ⟨n - 1, by omega⟩
          rw [distGo_step_bin_iff, ha m (by omega), hb m (by omega)]
      | .or =>
        rw [dm_bin_or] at hf
        have hlr2 : distMeasure l + 2 ≤ distMeasure l * distMeasure r := by
          calc distMeasure l + 2 ≤ distMeasure l + distMeasure l := by omega
            _ = distMeasure l * 2 := by ring
            _ ≤ distMeasure l * distMeasure r := Nat.mul_le_mul le_rfl hdr
        have hrl2 : distMeasure r + 2 ≤ distMeasure l * distMeasure r := by
          calc distMeasure r + 2 ≤ distMeasure r + distMeasure r := by omega
            _ = 2 * distMeasure r := by ring
            _ ≤ distMeasure l * distMeasure r := Nat.mul_le_mul hdl le_rfl
        obtain ⟨a, ha_le, ha⟩ := ih l (by omega)
        obtain ⟨b, hb_le, hb⟩ := ih r (by omega)
        match hA : getAnd a with
        | some (p, q) =>
          have haeq : a = .bin p q .and := getAnd_eq_some hA
          have hlt : distMeasure (Formula.bin (.bin p b .or) (.bin q b .or) .and) <
              distMeasure (Formula.bin l r .or) :=
            dm_left_lt (by rw [← haeq]; exact ha_le) hb_le
          rw [dm_bin_or] at hlt
          obtain ⟨g, hg_le, hg⟩ :=
            ih (.bin (.bin p b .or) (.bin q b .or) .and) (by omega)
          refine ⟨g, ?_, fun n hn => ?_⟩
          · rw [dm_bin_or]; omega
          · rw [dm_bin_or] at hn
            obtain ⟨m, rfl⟩ : ∃ m, n = m + 1 := ⟨n - 1, by omega⟩
            rw [distGo_step_bin_or, ha m (by omega), hb m (by omega)]
            simp only [hA]
            exact hg m (by omega)
        | none =>
          match hB : getAnd b with
          | some (q, s) =>
            have hbeq : b = .bin q s .and := getAnd_eq_some hB
            have hlt : distMeasure (Formula.bin (.bin a q .or) (.bin a s .or) .and) <
                distMeasure (Formula.bin l r .or) :=
              dm_right_lt ha_le (by rw [← hbeq]; exact hb_le)
            rw [dm_bin_or] at hlt
            obtain ⟨g, hg_le, hg⟩ :=
              ih (.bin (.bin a q .or) (.bin a s .or) .and) (by omega)
            refine ⟨g, ?_, fun n hn => ?_⟩
            · rw [dm_bin_or]; omega
            · rw [dm_bin_or] at hn
              obtain ⟨m, rfl⟩ : ∃ m, n = m + 1 := ⟨n - 1, by omega⟩
              rw [distGo_step_bin_or, ha m (by omega), hb m (by omega)]
              simp only [hA, hB]
              exact hg m (by omega)
          | none =>
            refine ⟨.bin a b .or, ?_, fun n hn => ?_⟩
            · rw [dm_bin_or, dm_bin_or]; exact Nat.mul_le_mul ha_le hb_le
            · rw [dm_bin_or] at hn
              obtain ⟨m, rfl⟩ : ∃ m, n = m + 1 := ⟨n - 1, by omega⟩
              rw [distGo_step_bin_or, ha m (by omega), hb m (by omega)]
              simp only [hA, hB]

theorem distGo_eq (f : Formula) (n : Nat) (hn : distMeasure f ≤ n) :
    distGo n f = some (distribute_or_over_and f) := by
  obtain ⟨g, _, hg⟩ := distGo_total (distMeasure f) f le_rfl
  have h1 : distribute_or_over_and f = g := by
    unfold distribute_or_over_and
    rw [hg (distMeasure f) le_rfl]
    rfl
  rw [h1]
  exact hg n hn

theorem dm_dist_le (f : Formula) :
    distMeasure (distribute_or_over_and f) ≤ distMeasure f := by
  obtain ⟨g, hle, hg⟩ := distGo_total (distMeasure f) f le_rfl
  have h1 : distribute_or_over_and f = g := by
    unfold distribute_or_over_and
    rw [hg (distMeasure f) le_rfl]
    rfl
  rw [h1]
  exact hle

theorem dist_var (s : String) : distribute_or_over_and (.var s) = .var s := rfl

theorem dist_not (x : Formula) : distribute_or_over_and (.not x) = .not x := by
  have h2 := two_le_distMeasure (Formula.not x)
  obtain ⟨m, hm⟩ : ∃ m, distMeasure (Formula.not x) = m + 1 :=
    ⟨distMeasure (Formula.not x) - 1, by omega⟩
  unfold distribute_or_over_and
  rw [hm, distGo_step_not]
  rfl

theorem dist_bin_and (l r : Formula) :
    distribute_or_over_and (.bin l r .and) =
      .bin (distribute_or_over_and l) (distribute_or_over_and r) .and := by
  have hdl := two_le_distMeasure l
  have hdr := two_le_distMeasure r
  have h1 := distGo_eq (.bin l r .and) _ le_rfl
  obtain ⟨m, hm⟩ : ∃ m, distMeasure (Formula.bin l r .and) = m + 1 :=
    ⟨distMeasure (Formula.bin l r .and) - 1, by rw [dm_bin_and]; omega⟩
  have hmm := hm
  rw [dm_bin_and] at hmm
  rw [hm, distGo_step_bin_and, distGo_eq l m (by omega),
    distGo_eq r m (by omega)] at h1
  exact (Option.some.inj h1).symm

theorem dist_bin_imp (l r : Formula) :
    distribute_or_over_and (.bin l r .implies) =
      .bin (distribute_or_over_and l) (distribute_or_over_and r) .implies := by
  have hdl := two_le_distMeasure l
  have hdr := two_le_distMeasure r
  have h1 := distGo_eq (.bin l r .implies) _ le_rfl
  obtain ⟨m, hm⟩ : ∃ m, distMeasure (Formula.bin l r .implies) = m + 1 :=
    ⟨distMeasure (Formula.bin l r .implies) - 1, by rw [dm_bin_imp]; omega⟩
  have hmm := hm
  rw [dm_bin_imp] at hmm
  rw [hm, distGo_step_bin_imp, distGo_eq l m (by omega),
    distGo_eq r m (by omega)] at h1
  exact (Option.some.inj h1).symm

theorem dist_bin_iff (l r : Formula) :
    distribute_or_over_and (.bin l r .iff) =
      .bin (distribute_or_over_and l) (distribute_or_over_and r) .iff := by
  have hdl := two_le_distMeasure l
  have hdr := two_le_distMeasure r
  have h1 := distGo_eq (.bin l r .iff) _ le_rfl
  obtain ⟨m, hm⟩ : ∃ m, distMeasure (Formula.bin l r .iff) = m + 1 :=
    ⟨distMeasure (Formula.bin l r .iff) - 1, by rw [dm_bin_iff]; omega⟩
  have hmm := hm
  rw [dm_bin_iff] at hmm
  rw [hm, distGo_step_bin_iff, distGo_eq l m (by omega),
    distGo_eq r m (by omega)] at h1
  exact (Option.some.inj h1).symm

theorem dist_fuel_facts (l r : Formula) :
    distMeasure l + 2 ≤ distMeasure l * distMeasure r ∧
      distMeasure r + 2 ≤ distMeasure l * distMeasure r := by
  have hdl := two_le_distMeasure l
  have hdr := two_le_distMeasure r
  constructor
  · calc distMeasure l + 2 ≤ distMeasure l + distMeasure l := by omega
      _ = distMeasure l * 2 := by ring
      _ ≤ distMeasure l * distMeasure r := Nat.mul_le_mul le_rfl hdr
  · calc distMeasure r + 2 ≤ distMeasure r + distMeasure r := by omega
      _ = 2 * distMeasure r := by ring
      _ ≤ distMeasure l * distMeasure r := Nat.mul_le_mul hdl le_rfl

theorem dist_or_left {l r p q : Formula}
    (hA : getAnd (distribute_or_over_and l) = some (p, q)) :
    distribute_or_over_and (.bin l r .or) =
      distribute_or_over_and
        (.bin (.bin p (distribute_or_over_and r) .or)
              (.bin q (distribute_or_over_and r) .or) .and) := by
  obtain ⟨hf1, hf2⟩ := dist_fuel_facts l r
  have haeq := getAnd_eq_some hA
  have hlt : distMeasure
      (Formula.bin (.bin p (distribute_or_over_and r) .or)
        (.bin q (distribute_or_over_and r) .or) .and) <
      distMeasure (Formula.bin l r .or) :=
    dm_left_lt (by rw [← haeq]; exact dm_dist_le l) (dm_dist_le r)
  rw [dm_bin_or] at hlt
  have h1 := distGo_eq (.bin l r .or) _ le_rfl
  obtain ⟨m, hm⟩ : ∃ m, distMeasure (Formula.bin l r .or) = m + 1 :=
    ⟨distMeasure (Formula.bin l r .or) - 1,
      by rw [dm_bin_or]; have := two_le_distMeasure (Formula.bin l r .or); rw [dm_bin_or] at this; omega⟩
  have hmm := hm
  rw [dm_bin_or] at hmm
  rw [hm, distGo_step_bin_or, distGo_eq l m (by omega),
    distGo_eq r m (by omega)] at h1
  simp only [hA] at h1
  rw [distGo_eq _ m (by omega)] at h1
  exact (Option.some.inj h1).symm

theorem dist_or_right {l r q s : Formula}
    (hA : getAnd (distribute_or_over_and l) = none)
    (hB : getAnd (distribute_or_over_and r) = some (q, s)) :
    distribute_or_over_and (.bin l r .or) =
      distribute_or_over_and
        (.bin (.bin (distribute_or_over_and l) q .or)
              (.bin (distribute_or_over_and l) s .or) .and) := by
  obtain ⟨hf1, hf2⟩ := dist_fuel_facts l r
  have hbeq := getAnd_eq_some hB
  have hlt : distMeasure
      (Formula.bin (.bin (distribute_or_over_and l) q .or)
        (.bin (distribute_or_over_and l) s .or) .and) <
      distMeasure (Formula.bin l r .or) :=
    dm_right_lt (dm_dist_le l) (by rw [← hbeq]; exact dm_dist_le r)
  rw [dm_bin_or] at hlt
  have h1 := distGo_eq (.bin l r .or) _ le_rfl
  obtain ⟨m, hm⟩ : ∃ m, distMeasure (Formula.bin l r .or) = m + 1 :=
    ⟨distMeasure (Formula.bin l r .or) - 1,
      by rw [dm_bin_or]; have := two_le_distMeasure (Formula.bin l r .or); rw [dm_bin_or] at this; omega⟩
  have hmm := hm
  rw [dm_bin_or] at hmm
  rw [hm, distGo_step_bin_or, distGo_eq l m (by omega),
    distGo_eq r m (by omega)] at h1
  simp only [hA, hB] at h1
  rw [distGo_eq _ m (by omega)] at h1
  exact (Option.some.inj h1).symm

theorem dist_or_none {l r : Formula}
    (hA : getAnd (distribute_or_over_and l) = none)
    (hB : getAnd (distribute_or_over_and r) = none) :
    distribute_or_over_and (.bin l r .or) =
      .bin (distribute_or_over_and l) (distribute_or_over_and r) .or := by
  obtain ⟨hf1, hf2⟩ := dist_fuel_facts l r
  have h1 := distGo_eq (.bin l r .or) _ le_rfl
  obtain ⟨m, hm⟩ : ∃ m, distMeasure (Formula.bin l r .or) = m + 1 :=
    ⟨distMeasure (Formula.bin l r .or) - 1,
      by rw [dm_bin_or]; have := two_le_distMeasure (Formula.bin l r .or); rw [dm_bin_or] at this; omega⟩
  have hmm := hm
  rw [dm_bin_or] at hmm
  rw [hm, distGo_step_bin_or, distGo_eq l m (by omega),
    distGo_eq r m (by omega)] at h1
  simp only [hA, hB] at h1
  exact (Option.some.inj h1).symm

/-! ### Step 3: `distribute_or_over_and` preserves truth value and
variables, and yields CNF shape on NNF input -/

theorem eval_dist_aux (v : String → Bool) : ∀ (k : Nat) (f : Formula),
    distMeasure f ≤ k → eval v (distribute_or_over_and f) = eval v f := by
  intro k
  induction k with
  | zero => intro f hf; have := two_le_distMeasure f; omega
  | succ k ih =>
    intro f hf
    match f with
    | .var s => rw [dist_var]
    | .not x => rw [dist_not]
    | .bin l r op =>
      have hdl := two_le_distMeasure l
      have hdr := two_le_distMeasure r
      match op with
      | .and =>
        rw [dm_bin_and] at hf
        rw [dist_bin_and]
        simp only [eval]
        rw [ih l (by omega), ih r (by omega)]
      | .implies =>
        rw [dm_bin_imp] at hf
        rw [dist_bin_imp]
        simp only [eval]
        rw [ih l (by omega), ih r (by omega)]
      | .iff =>
        rw [dm_bin_iff] at hf
        rw [dist_bin_iff]
        simp only [eval]
        rw [ih l (by omega), ih r (by omega)]
      | .or =>
        rw [dm_bin_or] at hf
        obtain ⟨hf1, hf2⟩ := dist_fuel_facts l r
        rcases hA : getAnd (distribute_or_over_and l) with _ | ⟨p, q⟩
        · rcases hB : getAnd (distribute_or_over_and r) with _ | ⟨q, s⟩
          · rw [dist_or_none hA hB]
            simp only [eval]
            rw [ih l (by omega), ih r (by omega)]
          · have hbeq := getAnd_eq_some hB
            have hlt := dm_right_lt (a := distribute_or_over_and l) (q := q) (s := s)
              (l := l) (r := r) (dm_dist_le l) (by rw [← hbeq]; exact dm_dist_le r)
            rw [dm_bin_or] at hlt
            rw [dist_or_right hA hB, ih _ (by omega)]
            have hl' := ih l (by omega)
            have hr' := ih r (by omega)
            rw [hbeq] at hr'
            simp only [eval] at hr' ⊢
            rw [hl', ← hr']
            cases eval v l <;> cases eval v q <;> cases eval v s <;> rfl
        · have haeq := getAnd_eq_some hA
          have hlt := dm_left_lt (p := p) (q := q) (b := distribute_or_over_and r)
            (l := l) (r := r) (by rw [← haeq]; exact dm_dist_le l) (dm_dist_le r)
          rw [dm_bin_or] at hlt
          rw [dist_or_left hA, ih _ (by omega)]
          have hl' := ih l (by omega)
          have hr' := ih r (by omega)
          rw [haeq] at hl'
          simp only [eval] at hl' ⊢
          rw [hr', ← hl']
          cases eval v p <;> cases eval v q <;> cases eval v r <;> rfl

theorem eval_dist (v : String → Bool) (f : Formula) :
    eval v (distribute_or_over_and f) = eval v f :=
  eval_dist_aux v (distMeasure f) f le_rfl

theorem vars_dist_aux (x : String) : ∀ (k : Nat) (f : Formula),
    distMeasure f ≤ k →
    (x ∈ get_variables (distribute_or_over_and f) ↔ x ∈ get_variables f) := by
  intro k
  induction k with
  | zero => intro f hf; have := two_le_distMeasure f; omega
  | succ k ih =>
    intro f hf
    match f with
    | .var s => rw [dist_var]
    | .not y => rw [dist_not]
    | .bin l r op =>
      have hdl := two_le_distMeasure l
      have hdr := two_le_distMeasure r
      match op with
      | .and =>
        rw [dm_bin_and] at hf
        rw [dist_bin_and]
        simp only [get_variables, List.mem_append]
        rw [ih l (by omega), ih r (by omega)]
      | .implies =>
        rw [dm_bin_imp] at hf
        rw [dist_bin_imp]
        simp only [get_variables, List.mem_append]
        rw [ih l (by omega), ih r (by omega)]
      | .iff =>
        rw [dm_bin_iff] at hf
        rw [dist_bin_iff]
        simp only [get_variables, List.mem_append]
        rw [ih l (by omega), ih r (by omega)]
      | .or =>
        rw [dm_bin_or] at hf
        obtain ⟨hf1, hf2⟩ := dist_fuel_facts l r
        rcases hA : getAnd (distribute_or_over_and l) with _ | ⟨p, q⟩
        · rcases hB : getAnd (distribute_or_over_and r) with _ | ⟨q, s⟩
          · rw [dist_or_none hA hB]
            simp only [get_variables, List.mem_append]
            rw [ih l (by omega), ih r (by omega)]
          · have hbeq := getAnd_eq_some hB
            have hlt := dm_right_lt (a := distribute_or_over_and l) (q := q) (s := s)
              (l := l) (r := r) (dm_dist_le l) (by rw [← hbeq]; exact dm_dist_le r)
            rw [dm_bin_or] at hlt
            rw [dist_or_right hA hB, ih _ (by omega)]
            have hl' := ih l (by omega)
            have hr' := ih r (by omega)
            rw [hbeq] at hr'
            simp only [get_variables, List.mem_append] at hl' hr' ⊢
            rw [hl', ← hr']
            tauto
        · have haeq := getAnd_eq_some hA
          have hlt := dm_left_lt (p := p) (q := q) (b := distribute_or_over_and r)
            (l := l) (r := r) (by rw [← haeq]; exact dm_dist_le l) (dm_dist_le r)
          rw [dm_bin_or] at hlt
          rw [dist_or_left hA, ih _ (by omega)]
          have hl' := ih l (by omega)
          have hr' := ih r (by omega)
          rw [haeq] at hl'
          simp only [get_variables, List.mem_append] at hl' hr' ⊢
          rw [hr', ← hl']
          tauto

theorem vars_dist (x : String) (f : Formula) :
    x ∈ get_variables (distribute_or_over_and f) ↔ x ∈ get_variables f :=
  vars_dist_aux x (distMeasure f) f le_rfl

theorem isLiteral_isNNF : ∀ f, isLiteral f = true → isNNF f = true := by
  intro f h
  match f with
  | .var s => rfl
  | .not (.var s) => rfl
  | .not (.not x) => simp [isLiteral] at h
  | .not (.bin l r op) => simp [isLiteral] at h
  | .bin l r op => simp [isLiteral] at h

theorem isClause_isNNF : ∀ f, isClause f = true → isNNF f = true := by
  intro f
  induction f with
  | var s => intro h; rfl
  | not x ih => intro h; exact isLiteral_isNNF _ h
  | bin l r op ihl ihr =>
    intro h
    cases op with
    | or =>
      have h' : (isClause l && isClause r) = true := h
      simp only [Bool.and_eq_true] at h'
      show (okOp .or && isNNF l && isNNF r) = true
      simp [okOp, ihl h'.1, ihr h'.2]
    | and => simp [isClause, isLiteral] at h
    | implies => simp [isClause, isLiteral] at h
    | iff => simp [isClause, isLiteral] at h

theorem isCNF_isNNF : ∀ f, isCNF f = true → isNNF f = true := by
  intro f
  induction f with
  | var s => intro h; rfl
  | not x ih => intro h; exact isClause_isNNF _ h
  | bin l r op ihl ihr =>
    intro h
    cases op with
    | and =>
      have h' : (isCNF l && isCNF r) = true := h
      simp only [Bool.and_eq_true] at h'
      show (okOp .and && isNNF l && isNNF r) = true
      simp [okOp, ihl h'.1, ihr h'.2]
    | or => exact isClause_isNNF _ h
    | implies => exact isClause_isNNF _ h
    | iff => exact isClause_isNNF _ h

theorem isNNF_not_var {x : Formula} (h : isNNF (.not x) = true) : ∃ s, x = .var s := by
  match x with
  | .var s => exact ⟨s, rfl⟩
  | .not y => simp [isNNF] at h
  | .bin l r op => simp [isNNF] at h

theorem isClause_of_isCNF_getAnd_none {f : Formula}
    (h1 : isCNF f = true) (h2 : getAnd f = none) : isClause f = true := by
  cases f with
  | var s => rfl
  | not x => exact h1
  | bin l r op =>
    cases op with
    | and => simp [getAnd] at h2
    | or => exact h1
    | implies => exact h1
    | iff => exact h1

theorem isCNF_dist_aux : ∀ (k : Nat) (f : Formula),
    distMeasure f ≤ k → isNNF f = true →
    isCNF (distribute_or_over_and f) = true := by
  intro k
  induction k with
  | zero => intro f hf; have := two_le_distMeasure f; omega
  | succ k ih =>
    intro f hf hn
    match f with
    | .var s => rw [dist_var]; rfl
    | .not x =>
      obtain ⟨s, rfl⟩ := isNNF_not_var hn
      rw [dist_not]; rfl
    | .bin l r op =>
      have hdl := two_le_distMeasure l
      have hdr := two_le_distMeasure r
      have hn' : (okOp op && isNNF l && isNNF r) = true := hn
      simp only [Bool.and_eq_true] at hn'
      obtain ⟨⟨hop, hnl⟩, hnr⟩ := hn'
      match op with
      | .implies => simp [okOp] at hop
      | .iff => simp [okOp] at hop
      | .and =>
        rw [dm_bin_and] at hf
        rw [dist_bin_and]
        show (isCNF (distribute_or_over_and l) &&
          isCNF (distribute_or_over_and r)) = true
        simp [ih l (by omega) hnl, ih r (by omega) hnr]
      | .or =>
        rw [dm_bin_or] at hf
        obtain ⟨hf1, hf2⟩ := dist_fuel_facts l r
        have hcl := ih l (by omega) hnl
        have hcr := ih r (by omega) hnr
        rcases hA : getAnd (distribute_or_over_and l) with _ | ⟨p, q⟩
        · rcases hB : getAnd (distribute_or_over_and r) with _ | ⟨q, s⟩
          · rw [dist_or_none hA hB]
            show (isClause (distribute_or_over_and l) &&
              isClause (distribute_or_over_and r)) = true
            simp [isClause_of_isCNF_getAnd_none hcl hA,
              isClause_of_isCNF_getAnd_none hcr hB]
          · have hbeq := getAnd_eq_some hB
            have hlt := dm_right_lt (a := distribute_or_over_and l) (q := q) (s := s)
              (l := l) (r := r) (dm_dist_le l) (by rw [← hbeq]; exact dm_dist_le r)
            rw [dm_bin_or] at hlt
            rw [dist_or_right hA hB]
            have hq : isCNF q = true ∧ isCNF s = true := by
              rw [hbeq] at hcr
              have : (isCNF q && isCNF s) = true := hcr
              simpa [Bool.and_eq_true] using this
            refine ih _ (by omega) ?_
            show (okOp .and &&
              (okOp .or && isNNF (distribute_or_over_and l) && isNNF q) &&
              (okOp .or && isNNF (distribute_or_over_and l) && isNNF s)) = true
            simp [okOp, isCNF_isNNF _ hcl, isCNF_isNNF _ hq.1, isCNF_isNNF _ hq.2]
        · have haeq := getAnd_eq_some hA
          have hlt := dm_left_lt (p := p) (q := q) (b := distribute_or_over_and r)
            (l := l) (r := r) (by rw [← haeq]; exact dm_dist_le l) (dm_dist_le r)
          rw [dm_bin_or] at hlt
          rw [dist_or_left hA]
          have hpq : isCNF p = true ∧ isCNF q = true := by
            rw [haeq] at hcl
            have : (isCNF p && isCNF q) = true := hcl
            simpa [Bool.and_eq_true] using this
          refine ih _ (by omega) ?_
          show (okOp .and &&
            (okOp .or && isNNF p && isNNF (distribute_or_over_and r)) &&
            (okOp .or && isNNF q && isNNF (distribute_or_over_and r))) = true
          simp [okOp, isCNF_isNNF _ hcr, isCNF_isNNF _ hpq.1, isCNF_isNNF _ hpq.2]

theorem isCNF_dist (f : Formula) (h : isNNF f = true) :
    isCNF (distribute_or_over_and f) = true :=
  isCNF_dist_aux (distMeasure f) f le_rfl h

theorem distNormal_dist_aux : ∀ (k : Nat) (f : Formula),
    distMeasure f ≤ k → distNormal (distribute_or_over_and f) = true := by
  intro k
  induction k with
  | zero => intro f hf; have := two_le_distMeasure f; omega
  | succ k ih =>
    intro f hf
    match f with
    | .var s => rw [dist_var]; rfl
    | .not x => rw [dist_not]; rfl
    | .bin l r op =>
      have hdl := two_le_distMeasure l
      have hdr := two_le_distMeasure r
      match op with
      | .and =>
        rw [dm_bin_and] at hf
        rw [dist_bin_and]
        show (distNormal (distribute_or_over_and l) &&
          distNormal (distribute_or_over_and r) &&
          (if (Op.and = Op.or) then
            (getAnd (distribute_or_over_and l)).isNone &&
              (getAnd (distribute_or_over_and r)).isNone
           else true)) = true
        simp [ih l (by omega), ih r (by omega)]
      | .implies =>
        rw [dm_bin_imp] at hf
        rw [dist_bin_imp]
        show (distNormal (distribute_or_over_and l) &&
          distNormal (distribute_or_over_and r) &&
          (if (Op.implies = Op.or) then
            (getAnd (distribute_or_over_and l)).isNone &&
              (getAnd (distribute_or_over_and r)).isNone
           else true)) = true
        simp [ih l (by omega), ih r (by omega)]
      | .iff =>
        rw [dm_bin_iff] at hf
        rw [dist_bin_iff]
        show (distNormal (distribute_or_over_and l) &&
          distNormal (distribute_or_over_and r) &&
          (if (Op.iff = Op.or) then
            (getAnd (distribute_or_over_and l)).isNone &&
              (getAnd (distribute_or_over_and r)).isNone
           else true)) = true
        simp [ih l (by omega), ih r (by omega)]
      | .or =>
        rw [dm_bin_or] at hf
        obtain ⟨hf1, hf2⟩ := dist_fuel_facts l r
        rcases hA : getAnd (distribute_or_over_and l) with _ | ⟨p, q⟩
        · rcases hB : getAnd (distribute_or_over_and r) with _ | ⟨q, s⟩
          · rw [dist_or_none hA hB]
            show (distNormal (distribute_or_over_and l) &&
              distNormal (distribute_or_over_and r) &&
              (if (Op.or = Op.or) then
                (getAnd (distribute_or_over_and l)).isNone &&
                  (getAnd (distribute_or_over_and r)).isNone
               else true)) = true
            simp [ih l (by omega), ih r (by omega), hA, hB]
          · have hbeq := getAnd_eq_some hB
            have hlt := dm_right_lt (a := distribute_or_over_and l) (q := q) (s := s)
              (l := l) (r := r) (dm_dist_le l) (by rw [← hbeq]; exact dm_dist_le r)
            rw [dm_bin_or] at hlt
            rw [dist_or_right hA hB]
            exact ih _ (by omega)
        · have haeq := getAnd_eq_some hA
          have hlt := dm_left_lt (p := p) (q := q) (b := distribute_or_over_and r)
            (l := l) (r := r) (by rw [← haeq]; exact dm_dist_le l) (dm_dist_le r)
          rw [dm_bin_or] at hlt
          rw [dist_or_left hA]
          exact ih _ (by omega)

theorem distNormal_dist (f : Formula) :
    distNormal (distribute_or_over_and f) = true :=
  distNormal_dist_aux (distMeasure f) f le_rfl

theorem dist_of_distNormal : ∀ f, distNormal f = true → distribute_or_over_and f = f := by
  intro f
  induction f with
  | var s => intro h; exact dist_var s
  | not x ih => intro h; exact dist_not x
  | bin l r op ihl ihr =>
    intro h
    match op with
    | .and =>
      have h' : (distNormal l && distNormal r && true) = true := by
        simpa only [distNormal, if_neg (by simp : ¬ (Op.and = Op.or))] using h
      simp only [Bool.and_true, Bool.and_eq_true] at h'
      rw [dist_bin_and, ihl h'.1, ihr h'.2]
    | .implies =>
      have h' : (distNormal l && distNormal r && true) = true := by
        simpa only [distNormal, if_neg (by simp : ¬ (Op.implies = Op.or))] using h
      simp only [Bool.and_true, Bool.and_eq_true] at h'
      rw [dist_bin_imp, ihl h'.1, ihr h'.2]
    | .iff =>
      have h' : (distNormal l && distNormal r && true) = true := by
        simpa only [distNormal, if_neg (by simp : ¬ (Op.iff = Op.or))] using h
      simp only [Bool.and_true, Bool.and_eq_true] at h'
      rw [dist_bin_iff, ihl h'.1, ihr h'.2]
    | .or =>
      have h' : (distNormal l && distNormal r &&
          ((getAnd l).isNone && (getAnd r).isNone)) = true := by
        simpa only [distNormal, if_pos rfl] using h
      simp only [Bool.and_eq_true, Option.isNone_iff_eq_none] at h'
      obtain ⟨⟨hdnl, hdnr⟩, hgl, hgr⟩ := h'
      have hA : getAnd (distribute_or_over_and l) = none := by rw [ihl hdnl]; exact hgl
      have hB : getAnd (distribute_or_over_and r) = none := by rw [ihr hdnr]; exact hgr
      rw [dist_or_none hA hB, ihl hdnl, ihr hdnr]

theorem dist_idempotent (f : Formula) :
    distribute_or_over_and (distribute_or_over_and f) = distribute_or_over_and f :=
  dist_of_distNormal _ (distNormal_dist f)

/-! ### Claims C1-C4 -/

/-- C1: for every input text that `parse` accepts and every truth
assignment, the formula produced by `eliminate_implications`, then
`convert_to_nnf`, then `distribute_or_over_and` evaluates to the same truth
value as the parsed AST. -/
theorem claim_c1_equivalence (text : String) (ast : Formula) (v : String → Bool)
    (h : parse text = .ok ast) : eval v (to_cnf ast) = eval v ast := by
  unfold to_cnf
  rw [eval_dist, eval_nnf, eval_eliminate]

/-- Witness for C1 at the concrete accepted input `"A -> B"` and the
all-true assignment. -/
theorem claim_c1_equivalence_witness :
    eval (fun _ => true) (to_cnf (.bin (.var "A") (.var "B") .implies)) =
      eval (fun _ => true) (.bin (.var "A") (.var "B") .implies) :=
  claim_c1_equivalence "A -> B" (.bin (.var "A") (.var "B") .implies)
    (fun _ => true) rfl

/-- C2: for every input text that `parse` accepts, the tree produced by the
full rewrite pipeline is in CNF shape: an `AND`-spine of `OR`-spines of
literals, so no `OR` node has an `AND` descendant reachable without
crossing another `AND`. -/
theorem claim_c2_cnf_shape (text : String) (ast : Formula)
    (h : parse text = .ok ast) : isCNF (to_cnf ast) = true := by
  unfold to_cnf
  exact isCNF_dist _ (isNNF_nnf _ (noImp_eliminate ast))

/-- Witness for C2 at the concrete accepted input `"(A <-> B) ^ C"`. -/
theorem claim_c2_cnf_shape_witness :
    isCNF (to_cnf (.bin (.bin (.var "A") (.var "B") .iff) (.var "C") .and)) = true :=
  claim_c2_cnf_shape "(A <-> B) ^ C"
    (.bin (.bin (.var "A") (.var "B") .iff) (.var "C") .and) rfl

/-- C3: `distribute_or_over_and` terminates on every finite formula tree:
running its recursion with `distMeasure f` fuel always completes (the fuel
counter never reaches zero), and its result is a fixpoint of the rewriting
(redistributing changes nothing). -/
theorem claim_c3_termination (f : Formula) :
    distGo (distMeasure f) f = some (distribute_or_over_and f) ∧
      distribute_or_over_and (distribute_or_over_and f) =
        distribute_or_over_and f :=
  ⟨distGo_eq f _ le_rfl, dist_idempotent f⟩

/-- C4: for every input text that `parse` accepts, the three rewrite passes
neither introduce nor remove variable names: the variable set of the
pipeline output equals that of the parsed AST. -/
theorem claim_c4_variables (text : String) (ast : Formula)
    (h : parse text = .ok ast) :
    ∀ x, x ∈ get_variables (to_cnf ast) ↔ x ∈ get_variables ast := by
  intro x
  unfold to_cnf
  rw [vars_dist, vars_nnf, vars_eliminate]

/-- Witness for C4 at the concrete accepted input `"A -> B"` and the
variable `"A"`. -/
theorem claim_c4_variables_witness :
    "A" ∈ get_variables (to_cnf (.bin (.var "A") (.var "B") .implies)) ↔
      "A" ∈ get_variables (.bin (.var "A") (.var "B") .implies) :=
  claim_c4_variables "A -> B" (.bin (.var "A") (.var "B") .implies) rfl "A"

/-! ### Claim C5: scenario "(A <-> B) ^ (A v ~B v C)" -/

/-- C5: the full pipeline on `"(A <-> B) ^ (A v ~B v C)"` parses to the
expected AST, assigns the variable map `A=1, B=2, C=3`, and produces
exactly 3 clauses with literal sets `{-1,2}`, `{-2,1}`, `{1,-2,3}` (the
code emits them in exactly this order). -/
theorem claim_c5_scenario1 :
    parse "(A <-> B) ^ (A v ~B v C)" =
      .ok (.bin (.bin (.var "A") (.var "B") .iff)
            (.bin (.bin (.var "A") (.not (.var "B")) .or) (.var "C") .or) .and) ∧
    varMapOf (to_cnf
        (.bin (.bin (.var "A") (.var "B") .iff)
          (.bin (.bin (.var "A") (.not (.var "B")) .or) (.var "C") .or) .and)) =
      [("A", 1), ("B", 2), ("C", 3)] ∧
    clausesOf (to_cnf
        (.bin (.bin (.var "A") (.var "B") .iff)
          (.bin (.bin (.var "A") (.not (.var "B")) .or) (.var "C") .or) .and)) =
      some [[-1, 2], [-2, 1], [1, -2, 3]] :=
  ⟨rfl, rfl, rfl⟩

/-! ### Tokenizer: fuel adequacy and the silent-drop property -/

theorem takeAlnum_snd_length : ∀ cs : List Char,
    (takeAlnum cs).2.length ≤ cs.length := by
  intro cs
  induction cs with
  | nil => simp [takeAlnum]
  | cons c cs ih =>
    by_cases h : isAlnumChar c = true
    · simp only [takeAlnum, if_pos h, List.length_cons]
      omega
    · simp only [takeAlnum, if_neg h]
      exact le_rfl

theorem takeAlnum_append_nonalnum :
    ∀ (xs : List Char) (c : Char) (ys : List Char), isAlnumChar c = false →
    takeAlnum (xs ++ c :: ys) = ((takeAlnum xs).1, (takeAlnum xs).2 ++ c :: ys) := by
  intro xs c ys hc
  induction xs with
  | nil =>
    simp only [List.nil_append, takeAlnum]
    rw [if_neg (by simp [hc])]
  | cons a xs ih =>
    show takeAlnum (a :: (xs ++ c :: ys)) = _
    by_cases ha : isAlnumChar a = true
    · simp only [takeAlnum, if_pos ha, ih]
    · simp only [takeAlnum, if_neg ha, List.cons_append]

theorem tokenizeGo_nil : ∀ n, tokenizeGo n [] = [] := by
  intro n
  cases n <;> rfl

theorem tokenizeGo_succ (n : Nat) (c : Char) (cs : List Char) :
    tokenizeGo (n+1) (c :: cs) =
      (if c = '<' then
        if cs.take 2 = ['-', '>'] then "<->" :: tokenizeGo n (cs.drop 2)
        else tokenizeGo n cs
      else if c = '-' then
        if cs.take 1 = ['>'] then "->" :: tokenizeGo n (cs.drop 1)
        else tokenizeGo n cs
      else if isSpaceChar c then tokenizeGo n cs
      else if isAlnumChar c then
        String.mk (c :: (takeAlnum cs).1) :: tokenizeGo n (takeAlnum cs).2
      else if c = '^' || c = '~' || c = '(' || c = ')' then
        String.mk [c] :: tokenizeGo n cs
      else tokenizeGo n cs) := rfl

theorem tokenizeGo_fuel : ∀ (n m : Nat) (cs : List Char),
    cs.length ≤ n → cs.length ≤ m → tokenizeGo n cs = tokenizeGo m cs := by
  intro n
  induction n with
  | zero =>
    intro m cs h1 h2
    have : cs = [] := List.eq_nil_of_length_eq_zero (by omega)
    subst this
    rw [tokenizeGo_nil, tokenizeGo_nil]
  | succ n ih =>
    intro m cs h1 h2
    match cs with
    | [] => rw [tokenizeGo_nil, tokenizeGo_nil]
    | c :: cs =>
      simp only [List.length_cons] at h1 h2
      obtain ⟨m', rfl⟩ : ∃ m', m = m' + 1 := ⟨m - 1, by omega⟩
      rw [tokenizeGo_succ, tokenizeGo_succ]
      have hdrop2 : (cs.drop 2).length ≤ cs.length := by
        rw [List.length_drop]; omega
      have hdrop1 : (cs.drop 1).length ≤ cs.length := by
        rw [List.length_drop]; omega
      have htk := takeAlnum_snd_length cs
      by_cases hc1 : c = '<'
      · rw [if_pos hc1, if_pos hc1]
        by_cases ht : cs.take 2 = ['-', '>']
        · rw [if_pos ht, if_pos ht, ih m' (cs.drop 2) (by omega) (by omega)]
        · rw [if_neg ht, if_neg ht, ih m' cs (by omega) (by omega)]
      · rw [if_neg hc1, if_neg hc1]
        by_cases hc2 : c = '-'
        · rw [if_pos hc2, if_pos hc2]
          by_cases ht : cs.take 1 = ['>']
          · rw [if_pos ht, if_pos ht, ih m' (cs.drop 1) (by omega) (by omega)]
          · rw [if_neg ht, if_neg ht, ih m' cs (by omega) (by omega)]
        · rw [if_neg hc2, if_neg hc2]
          by_cases hc3 : isSpaceChar c = true
          · rw [if_pos hc3, if_pos hc3, ih m' cs (by omega) (by omega)]
          · rw [if_neg hc3, if_neg hc3]
            by_cases hc4 : isAlnumChar c = true
            · rw [if_pos hc4, if_pos hc4,
                ih m' (takeAlnum cs).2 (by omega) (by omega)]
            · rw [if_neg hc4, if_neg hc4]
              by_cases hc5 : (c = '^' || c = '~' || c = '(' || c = ')') = true
              · rw [if_pos hc5, if_pos hc5, ih m' cs (by omega) (by omega)]
              · rw [if_neg hc5, if_neg hc5,
                  ih m' cs (by omega) (by omega)]

theorem tokenizeGo_eq_tokenize (n : Nat) (cs : List Char) (h : cs.length ≤ n) :
    tokenizeGo n cs = tokenize cs :=
  tokenizeGo_fuel n cs.length cs h le_rfl

theorem tokenize_cons (c : Char) (cs : List Char) :
    tokenize (c :: cs) =
      (if c = '<' then
        if cs.take 2 = ['-', '>'] then "<->" :: tokenize (cs.drop 2)
        else tokenize cs
      else if c = '-' then
        if cs.take 1 = ['>'] then "->" :: tokenize (cs.drop 1)
        else tokenize cs
      else if isSpaceChar c then tokenize cs
      else if isAlnumChar c then
        String.mk (c :: (takeAlnum cs).1) :: tokenize (takeAlnum cs).2
      else if c = '^' || c = '~' || c = '(' || c = ')' then
        String.mk [c] :: tokenize cs
      else tokenize cs) := by
  have h0 : tokenize (c :: cs) = tokenizeGo (cs.length + 1) (c :: cs) := by
    simp [tokenize]
  rw [h0, tokenizeGo_succ,
    tokenizeGo_eq_tokenize cs.length (cs.drop 2) (by rw [List.length_drop]; omega),
    tokenizeGo_eq_tokenize cs.length (cs.drop 1) (by rw [List.length_drop]; omega),
    tokenizeGo_eq_tokenize cs.length cs le_rfl,
    tokenizeGo_eq_tokenize cs.length (takeAlnum cs).2 (takeAlnum_snd_length cs)]

/-- A character that matches none of the token patterns and cannot combine
with neighbouring characters into `<->`/`->` (so not `<`, `-`, `>`): such a
character is always skipped by the scan. -/
def isDroppedChar (c : Char) : Bool :=
  !(isSpaceChar c) && !(isAlnumChar c) &&
    !(c = '^' || c = '~' || c = '(' || c = ')') &&
    !(c = '<' || c = '-' || c = '>')

theorem isDroppedChar_spec {c : Char} (h : isDroppedChar c = true) :
    isSpaceChar c = false ∧ isAlnumChar c = false ∧
      c ≠ '^' ∧ c ≠ '~' ∧ c ≠ '(' ∧ c ≠ ')' ∧ c ≠ '<' ∧ c ≠ '-' ∧ c ≠ '>' := by
  simp only [isDroppedChar, Bool.and_eq_true, Bool.not_eq_true',
    Bool.or_eq_false_iff, decide_eq_false_iff_not] at h
  tauto

theorem tokenize_cons_dropped {c : Char} (hc : isDroppedChar c = true)
    (cs : List Char) : tokenize (c :: cs) = tokenize cs := by
  obtain ⟨h1, h2, h3, h4, h5, h6, h7, h8, h9⟩ := isDroppedChar_spec hc
  rw [tokenize_cons, if_neg (by simp [h7]), if_neg (by simp [h8]),
    if_neg (by simp [h1]), if_neg (by simp [h2]),
    if_neg (by simp [h3, h4, h5, h6])]

theorem take2_append_ne {s1 : List Char} {c : Char} {s2 : List Char}
    (ht : ¬(s1.take 2 = ['-', '>'])) (h8 : c ≠ '-') (h9 : c ≠ '>') :
    ¬((s1 ++ c :: s2).take 2 = ['-', '>']) := by
  intro hcon
  match s1 with
  | [] =>
    simp only [List.nil_append, List.take_succ_cons, List.take,
      List.cons.injEq] at hcon
    exact h8 hcon.1
  | [d] =>
    simp only [List.cons_append, List.nil_append, List.take_succ_cons,
      List.take, List.cons.injEq] at hcon
    exact h9 hcon.2.1
  | d :: e :: s1' =>
    simp only [List.cons_append, List.take_succ_cons, List.take] at hcon ht
    exact ht hcon

theorem take1_append_ne {s1 : List Char} {c : Char} {s2 : List Char}
    (ht : ¬(s1.take 1 = ['>'])) (h9 : c ≠ '>') :
    ¬((s1 ++ c :: s2).take 1 = ['>']) := by
  intro hcon
  match s1 with
  | [] =>
    simp only [List.nil_append, List.take_succ_cons, List.take,
      List.cons.injEq] at hcon
    exact h9 hcon.1
  | d :: s1' =>
    simp only [List.cons_append, List.take_succ_cons, List.take] at hcon ht
    exact ht hcon

theorem tokenize_insert_dropped : ∀ (k : Nat) (s1 : List Char),
    s1.length ≤ k → ∀ (c : Char) (s2 : List Char), isDroppedChar c = true →
    tokenize (s1 ++ c :: s2) = tokenize s1 ++ tokenize s2 := by
  intro k
  induction k with
  | zero =>
    intro s1 h1 c s2 hc
    have h0 : s1 = [] := List.eq_nil_of_length_eq_zero (by omega)
    subst h0
    rw [List.nil_append, tokenize_cons_dropped hc,
      show tokenize ([] : List Char) = [] from rfl, List.nil_append]
  | succ k ih =>
    intro s1 h1 c s2 hc
    obtain ⟨hd1, hd2, hd3, hd4, hd5, hd6, hd7, hd8, hd9⟩ := isDroppedChar_spec hc
    cases s1 with
    | nil =>
      rw [List.nil_append, tokenize_cons_dropped hc,
        show tokenize ([] : List Char) = [] from rfl, List.nil_append]
    | cons c1 s1 =>
      simp only [List.length_cons] at h1
      show tokenize (c1 :: (s1 ++ c :: s2)) = tokenize (c1 :: s1) ++ tokenize s2
      rw [tokenize_cons c1 (s1 ++ c :: s2), tokenize_cons c1 s1]
      by_cases hc1 : c1 = '<'
      · rw [if_pos hc1, if_pos hc1]
        by_cases ht : s1.take 2 = ['-', '>']
        · have hlen2 : 2 ≤ s1.length := by
            have h2 : (s1.take 2).length = 2 := by rw [ht]; rfl
            rw [List.length_take] at h2
            omega
          have htap : (s1 ++ c :: s2).take 2 = ['-', '>'] := by
            rw [List.take_append_eq_append_take,
              Nat.sub_eq_zero_of_le hlen2, List.take_zero, List.append_nil, ht]
          have hdap : (s1 ++ c :: s2).drop 2 = s1.drop 2 ++ c :: s2 := by
            rw [List.drop_append_eq_append_drop,
              Nat.sub_eq_zero_of_le hlen2, List.drop_zero]
          rw [if_pos htap, if_pos ht, hdap,
            ih (s1.drop 2) (by rw [List.length_drop]; omega) c s2 hc]
          rfl
        · rw [if_neg (take2_append_ne ht hd8 hd9), if_neg ht,
            ih s1 (by omega) c s2 hc]
      · rw [if_neg hc1, if_neg hc1]
        by_cases hc2 : c1 = '-'
        · rw [if_pos hc2, if_pos hc2]
          by_cases ht : s1.take 1 = ['>']
          · have hlen1 : 1 ≤ s1.length := by
              have h2 : (s1.take 1).length = 1 := by rw [ht]; rfl
              rw [List.length_take] at h2
              omega
            have htap : (s1 ++ c :: s2).take 1 = ['>'] := by
              rw [List.take_append_eq_append_take,
                Nat.sub_eq_zero_of_le hlen1, List.take_zero, List.append_nil, ht]
            have hdap : (s1 ++ c :: s2).drop 1 = s1.drop 1 ++ c :: s2 := by
              rw [List.drop_append_eq_append_drop,
                Nat.sub_eq_zero_of_le hlen1, List.drop_zero]
            rw [if_pos htap, if_pos ht, hdap,
              ih (s1.drop 1) (by rw [List.length_drop]; omega) c s2 hc]
            rfl
          · rw [if_neg (take1_append_ne ht hd9), if_neg ht,
              ih s1 (by omega) c s2 hc]
        · rw [if_neg hc2, if_neg hc2]
          by_cases hc3 : isSpaceChar c1 = true
          · rw [if_pos hc3, if_pos hc3, ih s1 (by omega) c s2 hc]
          · rw [if_neg hc3, if_neg hc3]
            by_cases hc4 : isAlnumChar c1 = true
            · rw [if_pos hc4, if_pos hc4,
                takeAlnum_append_nonalnum s1 c s2 hd2]
              have hlen := takeAlnum_snd_length s1
              rw [show ((takeAlnum s1).1, (takeAlnum s1).2 ++ c :: s2).1 =
                  (takeAlnum s1).1 from rfl,
                show ((takeAlnum s1).1, (takeAlnum s1).2 ++ c :: s2).2 =
                  (takeAlnum s1).2 ++ c :: s2 from rfl,
                ih (takeAlnum s1).2 (by omega) c s2 hc]
              rfl
            · rw [if_neg hc4, if_neg hc4]
              by_cases hc5 : (c1 = '^' || c1 = '~' || c1 = '(' || c1 = ')') = true
              · rw [if_pos hc5, if_pos hc5, ih s1 (by omega) c s2 hc]
                rfl
              · rw [if_neg hc5, if_neg hc5, ih s1 (by omega) c s2 hc]

/-! ### Claim C8: tokenizer silent dropping -/

/-- C8 counterexample: the character `<` matches none of the token patterns
on its own (standalone it is silently dropped, first conjunct), and the
insertion point between `"A "` and `"-> B"` is between tokens (second
conjunct), yet inserting `<` there changes the token sequence — it merges
with the following `->` into `<->` — and changes the parse result.  So
"inserting an unrecognized character between tokens" does not always
preserve the token sequence. -/
theorem claim_c8_counterexample :
    tokenize ['<'] = [] ∧
    tokenize ("A ".data ++ "-> B".data) =
      tokenize "A ".data ++ tokenize "-> B".data ∧
    tokenize ("A ".data ++ '<' :: "-> B".data) ≠
      tokenize ("A ".data ++ "-> B".data) ∧
    parseTokens (tokenize ("A ".data ++ '<' :: "-> B".data)) ≠
      parseTokens (tokenize ("A ".data ++ "-> B".data)) := by
  refine ⟨rfl, rfl, ?_, ?_⟩
  · intro h
    have h2 : (["A", "<->", "B"] : List String) = ["A", "->", "B"] := h
    simp at h2
  · intro h
    have h2 : (Except.ok (Formula.bin (.var "A") (.var "B") .iff) :
        Except String Formula) = .ok (.bin (.var "A") (.var "B") .implies) := h
    simp at h2

/-- C8 amended: a character that matches none of the token patterns and is
not one of the operator fragments `<`, `-`, `>` (e.g. `#`) is silently
dropped by the tokenizer: inserting it anywhere splits the scan cleanly,
and when the insertion point is between tokens the token sequence — hence
the parse result — is unchanged. -/
theorem claim_c8_amended (c : Char) (s1 s2 : List Char)
    (hc : isDroppedChar c = true) :
    tokenize (s1 ++ c :: s2) = tokenize s1 ++ tokenize s2 ∧
      (tokenize (s1 ++ s2) = tokenize s1 ++ tokenize s2 →
        tokenize (s1 ++ c :: s2) = tokenize (s1 ++ s2) ∧
        parseTokens (tokenize (s1 ++ c :: s2)) =
          parseTokens (tokenize (s1 ++ s2))) := by
  have h := tokenize_insert_dropped s1.length s1 le_rfl c s2 hc
  exact ⟨h, fun hb => ⟨h.trans hb.symm, by rw [h, hb]⟩⟩

/-- Witness for the amended C8 at `c = '#'`, `s1 = "A "`, `s2 = "B"`. -/
theorem claim_c8_amended_witness :
    tokenize ("A ".data ++ '#' :: "B".data) =
        tokenize "A ".data ++ tokenize "B".data ∧
      (tokenize ("A ".data ++ "B".data) =
          tokenize "A ".data ++ tokenize "B".data →
        tokenize ("A ".data ++ '#' :: "B".data) = tokenize ("A ".data ++ "B".data) ∧
        parseTokens (tokenize ("A ".data ++ '#' :: "B".data)) =
          parseTokens (tokenize ("A ".data ++ "B".data))) :=
  claim_c8_amended '#' "A ".data "B".data (by decide)

/-! ### Parser: one-step unfolding lemmas and invariants -/

theorem parseIff_succ (n : Nat) (ts : List String) :
    parseIff (n+1) ts =
      (match parseImplies n ts with
       | .ok (node, rest) => parseIffLoop n node rest
       | .error e => .error e) := rfl

theorem parseIffLoop_succ (n : Nat) (node : Formula) (ts : List String) :
    parseIffLoop (n+1) node ts =
      (if ts.head? = some "<->" then
        match parseImplies n ts.tail with
        | .ok (right, rest) => parseIffLoop n (.bin node right .iff) rest
        | .error e => .error e
      else .ok (node, ts)) := rfl

theorem parseImplies_succ (n : Nat) (ts : List String) :
    parseImplies (n+1) ts =
      (match parseOr n ts with
       | .ok (node, rest) => parseImpliesLoop n node rest
       | .error e => .error e) := rfl

theorem parseImpliesLoop_succ (n : Nat) (node : Formula) (ts : List String) :
    parseImpliesLoop (n+1) node ts =
      (if ts.head? = some "->" then
        match parseOr n ts.tail with
        | .ok (right, rest) => parseImpliesLoop n (.bin node right .implies) rest
        | .error e => .error e
      else .ok (node, ts)) := rfl

theorem parseOr_succ (n : Nat) (ts : List String) :
    parseOr (n+1) ts =
      (match parseAnd n ts with
       | .ok (node, rest) => parseOrLoop n node rest
       | .error e => .error e) := rfl

theorem parseOrLoop_succ (n : Nat) (node : Formula) (ts : List String) :
    parseOrLoop (n+1) node ts =
      (if ts.head? = some "v" then
        match parseAnd n ts.tail with
        | .ok (right, rest) => parseOrLoop n (.bin node right .or) rest
        | .error e => .error e
      else .ok (node, ts)) := rfl

theorem parseAnd_succ (n : Nat) (ts : List String) :
    parseAnd (n+1) ts =
      (match parseNot n ts with
       | .ok (node, rest) => parseAndLoop n node rest
       | .error e => .error e) := rfl

theorem parseAndLoop_succ (n : Nat) (node : Formula) (ts : List String) :
    parseAndLoop (n+1) node ts =
      (if ts.head? = some "^" then
        match parseNot n ts.tail with
        | .ok (right, rest) => parseAndLoop n (.bin node right .and) rest
        | .error e => .error e
      else .ok (node, ts)) := rfl

theorem parseNot_succ (n : Nat) (ts : List String) :
    parseNot (n+1) ts =
      (if ts.head? = some "~" then
        match parseNot n ts.tail with
        | .ok (f, rest) => .ok (.not f, rest)
        | .error e => .error e
      else parseAtom n ts) := rfl

theorem parseAtom_succ (n : Nat) (ts : List String) :
    parseAtom (n+1) ts =
      (if ts.head? = some "(" then
        match parseIff n ts.tail with
        | .ok (node, rest) =>
          if rest.head? = some ")" then .ok (node, rest.tail)
          else .error ("Expected: ), Found: " ++ showTok rest.head?)
        | .error e => .error e
      else
        match ts.head? with
        | some t =>
          if isVarTok t then .ok (.var t, ts.tail)
          else .error ("Unexpected token: " ++ t)
        | none => .error ("Unexpected token: None")) := rfl

theorem parseOrLoop_no_v : ∀ (n : Nat) (node : Formula) (ts : List String)
    (f : Formula) (rest : List String),
    parseOrLoop n node ts = .ok (f, rest) → rest.head? ≠ some "v" := by
  intro n
  induction n with
  | zero =>
    intro node ts f rest h
    exact Except.noConfusion h
  | succ n ih =>
    intro node ts f rest h
    rw [parseOrLoop_succ] at h
    by_cases hv : ts.head? = some "v"
    · rw [if_pos hv] at h
      cases hA : parseAnd n ts.tail with
      | error e => rw [hA] at h; exact Except.noConfusion h
      | ok val =>
        obtain ⟨right, rest2⟩ := val
        rw [hA] at h
        exact ih _ _ _ _ h
    · rw [if_neg hv] at h
      cases h
      exact hv

/-! ### Claims C6 and C9 -/

/-- C6 counterexample: on the token list `["A", ")"]` a complete formula
(`Variable "A"`) is parsed and the token `)` remains, and `parse` raises
`Unexpected token: )` — exactly the same error value the parser raises for
the in-grammar unexpected token in `[")"]`.  The trailing-token failure is
therefore not a failure kind distinct from `UnexpectedToken`. -/
theorem claim_c6_counterexample :
    parseIff (parseFuel ["A", ")"]) ["A", ")"] = .ok (Formula.var "A", [")"]) ∧
    parseTokens ["A", ")"] = .error "Unexpected token: )" ∧
    parseTokens [")"] = .error "Unexpected token: )" := ⟨rfl, rfl, rfl⟩

/-- C6 amended: whenever a syntactically complete formula is parsed but
unconsumed tokens remain, `parse` fails — returning no partial AST — with
the message `Unexpected token: <tok>`, the same `ValueError` form used by
`_parse_atom` for in-grammar unexpected tokens (distinct from the
`Expected: ), Found: …` form, but not a separate `TrailingTokens` kind). -/
theorem claim_c6_amended (ts : List String) (ast : Formula) (t : String)
    (rest : List String)
    (h : parseIff (parseFuel ts) ts = .ok (ast, t :: rest)) :
    parseTokens ts = .error ("Unexpected token: " ++ t) := by
  cases ts with
  | nil =>
    have h2 : (Except.error "Unexpected token: None" :
        Except String (Formula × List String)) = .ok (ast, t :: rest) := h
    exact Except.noConfusion h2
  | cons t0 ts' =>
    show (match parseIff (parseFuel (t0 :: ts')) (t0 :: ts') with
      | .ok (a, []) => (Except.ok a : Except String Formula)
      | .ok (_, t :: _) => .error ("Unexpected token: " ++ t)
      | .error e => .error e) = .error ("Unexpected token: " ++ t)
    rw [h]

/-- Witness for the amended C6 at the concrete token list `["A", ")"]`. -/
theorem claim_c6_amended_witness :
    parseTokens ["A", ")"] = .error ("Unexpected token: " ++ ")") :=
  claim_c6_amended ["A", ")"] (.var "A") ")" [] rfl

/-- C9: the token `v` is interpreted by position: alone it parses as the
variable named `v`; after a complete AND-level subformula it is consumed as
the OR operator (`"A v B"`), and consequently the token list remaining
after the OR-level loop can never start with `v` — so a `Variable "v"` can
never be produced at a position immediately following a complete AND-level
subformula. -/
theorem claim_c9_v_token :
    parse "v" = .ok (.var "v") ∧
    parse "A v B" = .ok (.bin (.var "A") (.var "B") .or) ∧
    ∀ (n : Nat) (node : Formula) (ts : List String) (f : Formula)
      (rest : List String),
      parseOrLoop n node ts = .ok (f, rest) → rest.head? ≠ some "v" :=
  ⟨rfl, rfl, parseOrLoop_no_v⟩

/-- Witness for C9: the universally quantified part applied at the concrete
run `parseOrLoop 5 (Variable "A") ["v", "B"]`, which consumes the `v` as
the OR operator. -/
theorem claim_c9_v_token_witness : ([] : List String).head? ≠ some "v" :=
  claim_c9_v_token.2.2 5 (.var "A") ["v", "B"]
    (.bin (.var "A") (.var "B") .or) [] rfl

/-- Every formula a successful parser run returns contains a `Variable`
leaf: `_parse_atom` only builds `Variable` leaves or returns a
parenthesised subformula, and every other production only combines
results. -/
theorem parser_hasVar : ∀ n : Nat,
    (∀ ts f r, parseAtom n ts = .ok (f, r) → hasVar f = true) ∧
    (∀ ts f r, parseNot n ts = .ok (f, r) → hasVar f = true) ∧
    (∀ node ts f r, parseAndLoop n node ts = .ok (f, r) →
      hasVar node = true → hasVar f = true) ∧
    (∀ ts f r, parseAnd n ts = .ok (f, r) → hasVar f = true) ∧
    (∀ node ts f r, parseOrLoop n node ts = .ok (f, r) →
      hasVar node = true → hasVar f = true) ∧
    (∀ ts f r, parseOr n ts = .ok (f, r) → hasVar f = true) ∧
    (∀ node ts f r, parseImpliesLoop n node ts = .ok (f, r) →
      hasVar node = true → hasVar f = true) ∧
    (∀ ts f r, parseImplies n ts = .ok (f, r) → hasVar f = true) ∧
    (∀ node ts f r, parseIffLoop n node ts = .ok (f, r) →
      hasVar node = true → hasVar f = true) ∧
    (∀ ts f r, parseIff n ts = .ok (f, r) → hasVar f = true) := by
  intro n
  induction n with
  | zero =>
    refine ⟨fun ts f r h => Except.noConfusion h,
      fun ts f r h => Except.noConfusion h,
      fun node ts f r h hv => Except.noConfusion h,
      fun ts f r h => Except.noConfusion h,
      fun node ts f r h hv => Except.noConfusion h,
      fun ts f r h => Except.noConfusion h,
      fun node ts f r h hv => Except.noConfusion h,
      fun ts f r h => Except.noConfusion h,
      fun node ts f r h hv => Except.noConfusion h,
      fun ts f r h => Except.noConfusion h⟩
  | succ n ih =>
    obtain ⟨ihAtom, ihNot, ihAndLoop, ihAnd, ihOrLoop, ihOr,
      ihImpLoop, ihImp, ihIffLoop, ihIff⟩ := ih
    have hAtom : ∀ ts f r, parseAtom (n+1) ts = .ok (f, r) → hasVar f = true := by
      intro ts f r h
      rw [parseAtom_succ] at h
      by_cases hp : ts.head? = some "("
      · rw [if_pos hp] at h
        cases hI : parseIff n ts.tail with
        | error e => rw [hI] at h; exact Except.noConfusion h
        | ok val =>
          obtain ⟨node, rest⟩ := val
          rw [hI] at h
          have h2 : (if rest.head? = some ")" then
              (Except.ok (node, rest.tail) : Except String (Formula × List String))
            else .error ("Expected: ), Found: " ++ showTok rest.head?)) =
              .ok (f, r) := h
          by_cases hq : rest.head? = some ")"
          · rw [if_pos hq] at h2
            cases h2
            exact ihIff _ _ _ hI
          · rw [if_neg hq] at h2
            exact Except.noConfusion h2
      · rw [if_neg hp] at h
        cases ht : ts.head? with
        | none => rw [ht] at h; exact Except.noConfusion h
        | some t =>
          rw [ht] at h
          have h2 : (if isVarTok t = true then
              (Except.ok (Formula.var t, ts.tail) : Except String (Formula × List String))
            else .error ("Unexpected token: " ++ t)) = .ok (f, r) := h
          by_cases hv : isVarTok t = true
          · rw [if_pos hv] at h2
            cases h2
            rfl
          · rw [if_neg hv] at h2
            exact Except.noConfusion h2
    have hNot : ∀ ts f r, parseNot (n+1) ts = .ok (f, r) → hasVar f = true := by
      intro ts f r h
      rw [parseNot_succ] at h
      by_cases hn : ts.head? = some "~"
      · rw [if_pos hn] at h
        cases hN : parseNot n ts.tail with
        | error e => rw [hN] at h; exact Except.noConfusion h
        | ok val =>
          obtain ⟨g, rest⟩ := val
          rw [hN] at h
          cases h
          show hasVar g = true
          exact ihNot _ _ _ hN
      · rw [if_neg hn] at h
        exact ihAtom _ _ _ h
    have hAndLoop : ∀ node ts f r, parseAndLoop (n+1) node ts = .ok (f, r) →
        hasVar node = true → hasVar f = true := by
      intro node ts f r h hv
      rw [parseAndLoop_succ] at h
      by_cases hop : ts.head? = some "^"
      · rw [if_pos hop] at h
        cases hN : parseNot n ts.tail with
        | error e => rw [hN] at h; exact Except.noConfusion h
        | ok val =>
          obtain ⟨right, rest⟩ := val
          rw [hN] at h
          refine ihAndLoop _ _ _ _ h ?_
          show (hasVar node || hasVar right) = true
          rw [hv, Bool.true_or]
      · rw [if_neg hop] at h
        cases h
        exact hv
    have hAnd : ∀ ts f r, parseAnd (n+1) ts = .ok (f, r) → hasVar f = true := by
      intro ts f r h
      rw [parseAnd_succ] at h
      cases hN : parseNot n ts with
      | error e => rw [hN] at h; exact Except.noConfusion h
      | ok val =>
        obtain ⟨node, rest⟩ := val
        rw [hN] at h
        exact ihAndLoop _ _ _ _ h (ihNot _ _ _ hN)
    have hOrLoop : ∀ node ts f r, parseOrLoop (n+1) node ts = .ok (f, r) →
        hasVar node = true → hasVar f = true := by
      intro node ts f r h hv
      rw [parseOrLoop_succ] at h
      by_cases hop : ts.head? = some "v"
      · rw [if_pos hop] at h
        cases hN : parseAnd n ts.tail with
        | error e => rw [hN] at h; exact Except.noConfusion h
        | ok val =>
          obtain ⟨right, rest⟩ := val
          rw [hN] at h
          refine ihOrLoop _ _ _ _ h ?_
          show (hasVar node || hasVar right) = true
          rw [hv, Bool.true_or]
      · rw [if_neg hop] at h
        cases h
        exact hv
    have hOr : ∀ ts f r, parseOr (n+1) ts = .ok (f, r) → hasVar f = true := by
      intro ts f r h
      rw [parseOr_succ] at h
      cases hN : parseAnd n ts with
      | error e => rw [hN] at h; exact Except.noConfusion h
      | ok val =>
        obtain ⟨node, rest⟩ := val
        rw [hN] at h
        exact ihOrLoop _ _ _ _ h (ihAnd _ _ _ hN)
    have hImpLoop : ∀ node ts f r, parseImpliesLoop (n+1) node ts = .ok (f, r) →
        hasVar node = true → hasVar f = true := by
      intro node ts f r h hv
      rw [parseImpliesLoop_succ] at h
      by_cases hop : ts.head? = some "->"
      · rw [if_pos hop] at h
        cases hN : parseOr n ts.tail with
        | error e => rw [hN] at h; exact Except.noConfusion h
        | ok val =>
          obtain ⟨right, rest⟩ := val
          rw [hN] at h
          refine ihImpLoop _ _ _ _ h ?_
          show (hasVar node || hasVar right) = true
          rw [hv, Bool.true_or]
      · rw [if_neg hop] at h
        cases h
        exact hv
    have hImp : ∀ ts f r, parseImplies (n+1) ts = .ok (f, r) → hasVar f = true := by
      intro ts f r h
      rw [parseImplies_succ] at h
      cases hN : parseOr n ts with
      | error e => rw [hN] at h; exact Except.noConfusion h
      | ok val =>
        obtain ⟨node, rest⟩ := val
        rw [hN] at h
        exact ihImpLoop _ _ _ _ h (ihOr _ _ _ hN)
    have hIffLoop : ∀ node ts f r, parseIffLoop (n+1) node ts = .ok (f, r) →
        hasVar node = true → hasVar f = true := by
      intro node ts f r h hv
      rw [parseIffLoop_succ] at h
      by_cases hop : ts.head? = some "<->"
      · rw [if_pos hop] at h
        cases hN : parseImplies n ts.tail with
        | error e => rw [hN] at h; exact Except.noConfusion h
        | ok val =>
          obtain ⟨right, rest⟩ := val
          rw [hN] at h
          refine ihIffLoop _ _ _ _ h ?_
          show (hasVar node || hasVar right) = true
          rw [hv, Bool.true_or]
      · rw [if_neg hop] at h
        cases h
        exact hv
    have hIff : ∀ ts f r, parseIff (n+1) ts = .ok (f, r) → hasVar f = true := by
      intro ts f r h
      rw [parseIff_succ] at h
      cases hN : parseImplies n ts with
      | error e => rw [hN] at h; exact Except.noConfusion h
      | ok val =>
        obtain ⟨node, rest⟩ := val
        rw [hN] at h
        exact ihIffLoop _ _ _ _ h (ihImp _ _ _ hN)
    exact ⟨hAtom, hNot, hAndLoop, hAnd, hOrLoop, hOr, hImpLoop, hImp,
      hIffLoop, hIff⟩

/-- A successful `parse` always returns a formula with at least one
`Variable` leaf. -/
theorem parse_hasVar (text : String) (ast : Formula)
    (h : parse text = .ok ast) : hasVar ast = true := by
  unfold parse parseTokens at h
  cases hts : tokenize text.data with
  | nil => rw [hts] at h; exact Except.noConfusion h
  | cons t0 ts' =>
    rw [hts] at h
    cases hI : parseIff (parseFuel (t0 :: ts')) (t0 :: ts') with
    | error e => rw [hI] at h; exact Except.noConfusion h
    | ok val =>
      obtain ⟨node, rest⟩ := val
      rw [hI] at h
      cases rest with
      | nil =>
        cases h
        exact (parser_hasVar _).2.2.2.2.2.2.2.2.2 _ _ _ hI
      | cons t1 rest' => exact Except.noConfusion h

/-! ### DIMACS generation: sorted variable map and clause extraction -/

theorem charListLe_refl : ∀ a : List Char, charListLe a a = true := by
  intro a
  induction a with
  | nil => rfl
  | cons x as ih =>
    simp only [charListLe, if_neg (lt_irrefl x)]
    exact ih

theorem charListLe_total : ∀ a b : List Char,
    charListLe a b = true ∨ charListLe b a = true := by
  intro a
  induction a with
  | nil => intro b; left; rfl
  | cons x as ih =>
    intro b
    cases b with
    | nil => right; rfl
    | cons y bs =>
      rcases lt_trichotomy x y with h | h | h
      · left; simp [charListLe, if_pos h]
      · subst h
        simp only [charListLe, if_neg (lt_irrefl x)]
        exact ih bs
      · right; simp [charListLe, if_pos h]

theorem charListLe_trans : ∀ a b c : List Char, charListLe a b = true →
    charListLe b c = true → charListLe a c = true := by
  intro a
  induction a with
  | nil => intro b c hab hbc; rfl
  | cons x as ih =>
    intro b c hab hbc
    cases b with
    | nil => simp [charListLe] at hab
    | cons y bs =>
      cases c with
      | nil => simp [charListLe] at hbc
      | cons z cs =>
        simp only [charListLe] at hab hbc ⊢
        by_cases hxy : x < y
        · rw [if_pos hxy] at hab
          by_cases hyz : y < z
          · rw [if_pos (lt_trans hxy hyz)]
          · by_cases hzy : z < y
            · rw [if_neg hyz, if_pos hzy] at hbc
              exact absurd hbc (by simp)
            · have hyzeq : y = z := le_antisymm (not_lt.mp hzy) (not_lt.mp hyz)
              rw [if_pos (hyzeq ▸ hxy)]
        · by_cases hyx : y < x
          · rw [if_neg hxy, if_pos hyx] at hab
            exact absurd hab (by simp)
          · have hxyeq : x = y := le_antisymm (not_lt.mp hyx) (not_lt.mp hxy)
            subst hxyeq
            rw [if_neg hxy, if_neg hyx] at hab
            by_cases hxz : x < z
            · rw [if_pos hxz]
            · by_cases hzx : z < x
              · rw [if_neg hxz, if_pos hzx] at hbc
                exact absurd hbc (by simp)
              · rw [if_neg hxz, if_neg hzx] at hbc ⊢
                exact ih bs cs hab hbc

instance : IsTotal String (fun a b => strLe a b = true) :=
  ⟨fun a b => charListLe_total a.data b.data⟩

instance : IsTrans String (fun a b => strLe a b = true) :=
  ⟨fun a b c => charListLe_trans a.data b.data c.data⟩

theorem sortedVarsOf_sorted (f : Formula) :
    List.Sorted (fun a b => strLe a b = true) (sortedVarsOf f) :=
  List.sorted_insertionSort _ _

theorem sortedVarsOf_nodup (f : Formula) : (sortedVarsOf f).Nodup :=
  ((List.perm_insertionSort _ _).nodup_iff).mpr (List.nodup_dedup _)

theorem sortedVarsOf_mem (f : Formula) (x : String) :
    x ∈ sortedVarsOf f ↔ x ∈ get_variables f := by
  unfold sortedVarsOf
  rw [(List.perm_insertionSort _ _).mem_iff, List.mem_dedup]

theorem assignIds_length : ∀ (l : List String) (s : Nat),
    (assignIds s l).length = l.length := by
  intro l
  induction l with
  | nil => intro s; rfl
  | cons x xs ih => intro s; simp only [assignIds, List.length_cons, ih]

theorem assignIds_getD : ∀ (l : List String) (s i : Nat), i < l.length →
    (assignIds s l).getD i ("", 0) = (l.getD i "", s + i) := by
  intro l
  induction l with
  | nil => intro s i h; simp at h
  | cons x xs ih =>
    intro s i h
    cases i with
    | zero => rfl
    | succ j =>
      simp only [List.length_cons] at h
      show (assignIds (s+1) xs).getD j ("", 0) = (xs.getD j "", s + (j + 1))
      rw [ih (s+1) j (by omega)]
      have : s + 1 + j = s + (j + 1) := by omega
      rw [this]

theorem varMapOf_length (f : Formula) :
    (varMapOf f).length = (sortedVarsOf f).length :=
  assignIds_length _ _

/-! ### Claim C7 -/

/-- C7: for every CNF-shaped tree, DIMACS generation sorts the distinct
variable names ascending lexicographically (sorted and duplicate-free,
covering exactly the names in the tree) and assigns IDs `1, 2, …` in that
order; and encoding the same tree twice yields identical variable maps and
identical clause sequences (the generator is a pure function of the
tree). -/
theorem claim_c7_dimacs (f : Formula) (hcnf : isCNF f = true) :
    List.Sorted (fun a b => strLe a b = true) (sortedVarsOf f) ∧
    (sortedVarsOf f).Nodup ∧
    (∀ x, x ∈ sortedVarsOf f ↔ x ∈ get_variables f) ∧
    (varMapOf f).length = (sortedVarsOf f).length ∧
    (∀ i, i < (sortedVarsOf f).length →
      (varMapOf f).getD i ("", 0) = ((sortedVarsOf f).getD i "", i + 1)) ∧
    varMapOf f = varMapOf f ∧ clausesOf f = clausesOf f := by
  refine ⟨sortedVarsOf_sorted f, sortedVarsOf_nodup f, sortedVarsOf_mem f,
    varMapOf_length f, ?_, rfl, rfl⟩
  intro i hi
  unfold varMapOf
  rw [assignIds_getD _ 1 i hi, Nat.add_comm]

/-- Witness for C7 at the concrete CNF tree `Variable "A"`. -/
theorem claim_c7_dimacs_witness :
    List.Sorted (fun a b => strLe a b = true) (sortedVarsOf (.var "A")) ∧
    (sortedVarsOf (.var "A")).Nodup ∧
    (∀ x, x ∈ sortedVarsOf (.var "A") ↔ x ∈ get_variables (.var "A")) ∧
    (varMapOf (.var "A")).length = (sortedVarsOf (.var "A")).length ∧
    (∀ i, i < (sortedVarsOf (.var "A")).length →
      (varMapOf (.var "A")).getD i ("", 0) =
        ((sortedVarsOf (.var "A")).getD i "", i + 1)) ∧
    varMapOf (.var "A") = varMapOf (.var "A") ∧
    clausesOf (.var "A") = clausesOf (.var "A") :=
  claim_c7_dimacs (.var "A") rfl

/-! ### Claim C10 -/

theorem hasVar_mem : ∀ f, hasVar f = true → ∃ x, x ∈ get_variables f := by
  intro f
  induction f with
  | var s => intro h; exact ⟨s, by simp [get_variables]⟩
  | not x ih => intro h; exact ih h
  | bin l r op ihl ihr =>
    intro h
    have h' : (hasVar l || hasVar r) = true := h
    rcases Bool.or_eq_true_iff.mp h' with h1 | h1
    · obtain ⟨x, hx⟩ := ihl h1
      exact ⟨x, by simp [get_variables, List.mem_append, hx]⟩
    · obtain ⟨x, hx⟩ := ihr h1
      exact ⟨x, by simp [get_variables, List.mem_append, hx]⟩

theorem vars_to_cnf (x : String) (f : Formula) :
    x ∈ get_variables (to_cnf f) ↔ x ∈ get_variables f := by
  unfold to_cnf
  rw [vars_dist, vars_nnf, vars_eliminate]

theorem isCNF_to_cnf (f : Formula) : isCNF (to_cnf f) = true :=
  isCNF_dist _ (isNNF_nnf _ (noImp_eliminate f))

theorem collectLiterals_isClause (vm : List (String × Nat)) :
    ∀ f, isClause f = true → ∃ ls, collectLiterals vm f = some ls := by
  intro f
  induction f with
  | var s => intro h; exact ⟨_, rfl⟩
  | not x ih =>
    intro h
    match x with
    | .var s => exact ⟨_, rfl⟩
    | .not y => simp [isClause, isLiteral] at h
    | .bin a b op => simp [isClause, isLiteral] at h
  | bin l r op ihl ihr =>
    intro h
    match op with
    | .or =>
      have h' : (isClause l && isClause r) = true := h
      simp only [Bool.and_eq_true] at h'
      obtain ⟨ls1, h1⟩ := ihl h'.1
      obtain ⟨ls2, h2⟩ := ihr h'.2
      refine ⟨ls1 ++ ls2, ?_⟩
      show (match collectLiterals vm l, collectLiterals vm r with
        | some a, some b => some (a ++ b)
        | _, _ => none) = some (ls1 ++ ls2)
      rw [h1, h2]
    | .and => simp [isClause, isLiteral] at h
    | .implies => simp [isClause, isLiteral] at h
    | .iff => simp [isClause, isLiteral] at h

theorem collectClauses_isCNF (vm : List (String × Nat)) :
    ∀ f, isCNF f = true →
    ∃ cs, collectClauses vm f = some cs ∧ 1 ≤ cs.length := by
  intro f
  induction f with
  | var s => intro h; exact ⟨_, rfl, by simp⟩
  | not x ih =>
    intro h
    obtain ⟨ls, hls⟩ := collectLiterals_isClause vm (.not x) h
    refine ⟨[ls], ?_, by simp⟩
    show (match collectLiterals vm (.not x) with
      | some ls => some [ls]
      | none => none) = some [ls]
    rw [hls]
  | bin l r op ihl ihr =>
    intro h
    match op with
    | .and =>
      have h' : (isCNF l && isCNF r) = true := h
      simp only [Bool.and_eq_true] at h'
      obtain ⟨cs1, h1, hl1⟩ := ihl h'.1
      obtain ⟨cs2, h2, hl2⟩ := ihr h'.2
      refine ⟨cs1 ++ cs2, ?_, by simp; omega⟩
      show (match collectClauses vm l, collectClauses vm r with
        | some a, some b => some (a ++ b)
        | _, _ => none) = some (cs1 ++ cs2)
      rw [h1, h2]
    | .or =>
      obtain ⟨ls, hls⟩ := collectLiterals_isClause vm (.bin l r .or) h
      refine ⟨[ls], ?_, by simp⟩
      show (match collectLiterals vm (.bin l r .or) with
        | some ls => some [ls]
        | none => none) = some [ls]
      rw [hls]
    | .implies => simp [isCNF, isClause, isLiteral] at h
    | .iff => simp [isCNF, isClause, isLiteral] at h

theorem dimacsLines_eq (f : Formula) (cls : List (List Int))
    (h : clausesOf f = some cls) :
    dimacsLines f = some (
      (if (sortedVarsOf f).isEmpty then "c Variable Map:"
       else "c Variable Map: " ++ String.intercalate ", "
         ((sortedVarsOf f).map
           (fun nm => nm ++ "=" ++ toString (dictGet (varMapOf f) nm)))) ::
      ("p cnf " ++ toString (varMapOf f).length ++ " " ++
        toString cls.length) ::
      cls.map (fun c => String.intercalate " " (c.map toString) ++ " 0")) := by
  unfold dimacsLines
  rw [h]

theorem header_ne (x : String) :
    ("c Variable Map: " ++ x) ≠ "c Variable Map:" := by
  intro h
  have h2 := congrArg String.length h
  rw [String.length_append] at h2
  have e1 : ("c Variable Map: " : String).length = 16 := rfl
  have e2 : ("c Variable Map:" : String).length = 15 := rfl
  omega

/-- C10: every successfully parsed formula contains a variable, so after
the full pipeline the DIMACS output always has at least one variable and
at least one clause, and the zero-variable form of the comment line
(`c Variable Map:` with nothing after the colon) is unreachable from
parsed input. -/
theorem claim_c10_nonempty (text : String) (ast : Formula)
    (h : parse text = .ok ast) :
    hasVar ast = true ∧
    1 ≤ (varMapOf (to_cnf ast)).length ∧
    (∃ cs, clausesOf (to_cnf ast) = some cs ∧ 1 ≤ cs.length) ∧
    (∃ hd tl, dimacsLines (to_cnf ast) = some (hd :: tl) ∧
      hd ≠ "c Variable Map:") := by
  have hv := parse_hasVar text ast h
  obtain ⟨x, hx⟩ := hasVar_mem ast hv
  have hxc : x ∈ sortedVarsOf (to_cnf ast) :=
    (sortedVarsOf_mem _ x).mpr ((vars_to_cnf x ast).mpr hx)
  have hne : sortedVarsOf (to_cnf ast) ≠ [] := by
    intro hnil
    rw [hnil] at hxc
    simp at hxc
  have hlen : 1 ≤ (sortedVarsOf (to_cnf ast)).length := by
    cases hsv : sortedVarsOf (to_cnf ast) with
    | nil => exact absurd hsv hne
    | cons a tl => simp
  obtain ⟨cs, hcs, hcl⟩ :=
    collectClauses_isCNF (varMapOf (to_cnf ast)) (to_cnf ast)
      (isCNF_to_cnf ast)
  have hclauses : clausesOf (to_cnf ast) = some cs := hcs
  refine ⟨hv, by rw [varMapOf_length]; exact hlen, ⟨cs, hclauses, hcl⟩, ?_⟩
  have hempty : (sortedVarsOf (to_cnf ast)).isEmpty = false := by
    cases hsv : sortedVarsOf (to_cnf ast) with
    | nil => exact absurd hsv hne
    | cons a tl => rfl
  refine ⟨_, _, dimacsLines_eq _ cs hclauses, ?_⟩
  rw [if_neg (by simp [hempty])]
  exact header_ne _

/-- Witness for C10 at the concrete accepted input `"A"`. -/
theorem claim_c10_nonempty_witness :
    hasVar (Formula.var "A") = true ∧
    1 ≤ (varMapOf (to_cnf (.var "A"))).length ∧
    (∃ cs, clausesOf (to_cnf (.var "A")) = some cs ∧ 1 ≤ cs.length) ∧
    (∃ hd tl, dimacsLines (to_cnf (.var "A")) = some (hd :: tl) ∧
      hd ≠ "c Variable Map:") :=
  claim_c10_nonempty "A" (.var "A") rfl
